import Mathlib

/-!
# Verification of the TestMind-AI requirements-parser core

Shallow embedding of the document classification and resilient
structured-extraction pipeline:

* `app/requirements_parser/extractors/langchain_extractor.py`
  (`_parse_ai_response`, `extract_with_accuracy`, `extract_batch`),
* `app/requirements_parser/utils/smart_detector.py`
  (`_combine_results`, `_calculate_rule_confidence`, `detect_document_type`),
* `app/requirements_parser/models/document.py` (`Document` validators),
* `app/requirements_parser/parsers/markdown_parser.py` (`_extract_sections`).

Python strings are modelled as `List Char`.  `str.strip` is modelled over the
ASCII whitespace characters Python strips (the claims' inputs are in that
fragment).  Python's `json.loads`/`json.dumps` are modelled by `loads`/`dumps`
below over a JSON value type whose numbers are integers (the values exercised
by the code's prompts, tests and the claims; float literals are treated as a
parse failure) and whose objects keep their key/value pairs in textual order.
`json.dumps` defaults are modelled faithfully: separators `", "`/`": "`,
`ensure_ascii` escaping of non-printable and non-ASCII characters including
surrogate pairs for astral code points.
-/

namespace TestMind

/-! ## Python string primitives -/

/-- ASCII whitespace stripped by Python's `str.strip()`. -/
def isPyWs (c : Char) : Bool :=
  c = ' ' || c = '\t' || c = '\n' || c = '\r' || c = '\x0b' || c = '\x0c'

def stripLeft (s : List Char) : List Char := s.dropWhile isPyWs

def stripRight (s : List Char) : List Char := (s.reverse.dropWhile isPyWs).reverse

/-- Python `str.strip()`. -/
def pstrip (s : List Char) : List Char := stripRight (stripLeft s)

/-- Python `str.startswith(pre)`. -/
def startsWith : List Char → List Char → Bool
  | _, [] => true
  | [], _ :: _ => false
  | c :: ct, p :: pt => c = p && startsWith ct pt

/-- Python `str.endswith(suf)`. -/
def endsWith (s suf : List Char) : Bool := startsWith s.reverse suf.reverse

/-- Python `str.find(pat)`: index of the first occurrence, `none` for `-1`. -/
def findSubstr : List Char → List Char → Option Nat
  | s, pat =>
    if startsWith s pat then some 0
    else
      match s with
      | [] => none
      | _ :: t => (findSubstr t pat).map (· + 1)

/-- Python `pat in s`. -/
def containsSubstr (s pat : List Char) : Bool := (findSubstr s pat).isSome

/-- Python `str.split(sep)` for a one-character separator. -/
def splitOn (sep : Char) : List Char → List (List Char)
  | [] => [[]]
  | c :: t =>
    match splitOn sep t with
    | [] => [[c]]
    | h :: r => if c = sep then [] :: h :: r else (c :: h) :: r

/-! ## JSON values (`json.loads` / `json.dumps` model) -/

/-- A JSON value as handled by the Python `json` module (integer numerics). -/
inductive JVal where
  | jnull
  | jbool (b : Bool)
  | jnum (n : Int)
  | jstr (s : List Char)
  | jarr (xs : List JVal)
  | jobj (kvs : List (List Char × JVal))
  deriving Repr

mutual

def JVal.beq : JVal → JVal → Bool
  | .jnull, .jnull => true
  | .jbool a, .jbool b => a = b
  | .jnum a, .jnum b => a = b
  | .jstr a, .jstr b => a = b
  | .jarr a, .jarr b => JVal.beqList a b
  | .jobj a, .jobj b => JVal.beqKV a b
  | _, _ => false

def JVal.beqList : List JVal → List JVal → Bool
  | [], [] => true
  | a :: as, b :: bs => JVal.beq a b && JVal.beqList as bs
  | _, _ => false

def JVal.beqKV : List (List Char × JVal) → List (List Char × JVal) → Bool
  | [], [] => true
  | (ka, va) :: as, (kb, vb) :: bs => ka = kb && JVal.beq va vb && JVal.beqKV as bs
  | _, _ => false

end

mutual

theorem JVal.beq_iff : ∀ a b : JVal, JVal.beq a b = true ↔ a = b
  | .jnull, b => by cases b <;> simp [JVal.beq]
  | .jbool x, b => by cases b <;> simp [JVal.beq]
  | .jnum x, b => by cases b <;> simp [JVal.beq]
  | .jstr x, b => by cases b <;> simp [JVal.beq]
  | .jarr xs, b => by
    cases b <;> simp [JVal.beq]
    exact JVal.beqList_iff xs _
  | .jobj kvs, b => by
    cases b <;> simp [JVal.beq]
    exact JVal.beqKV_iff kvs _

theorem JVal.beqList_iff : ∀ a b : List JVal, JVal.beqList a b = true ↔ a = b
  | [], b => by cases b <;> simp [JVal.beqList]
  | x :: xs, b => by
    cases b with
    | nil => simp [JVal.beqList]
    | cons y ys =>
      simp [JVal.beqList, JVal.beq_iff x y, JVal.beqList_iff xs ys]

theorem JVal.beqKV_iff :
    ∀ a b : List (List Char × JVal), JVal.beqKV a b = true ↔ a = b
  | [], b => by cases b <;> simp [JVal.beqKV]
  | (k, v) :: xs, b => by
    cases b with
    | nil => simp [JVal.beqKV]
    | cons y ys =>
      obtain ⟨k', v'⟩ := y
      simp [JVal.beqKV, JVal.beq_iff v v', JVal.beqKV_iff xs ys, and_assoc]

end

instance : DecidableEq JVal := fun a b =>
  decidable_of_iff (JVal.beq a b = true) (JVal.beq_iff a b)

/-! ### Serialization (`json.dumps` with default options) -/

/-- Hexadecimal digit characters (lowercase, as emitted by `json.dumps`). -/
def hexDigit (d : Nat) : Char :=
  if d = 0 then '0' else if d = 1 then '1' else if d = 2 then '2'
  else if d = 3 then '3' else if d = 4 then '4' else if d = 5 then '5'
  else if d = 6 then '6' else if d = 7 then '7' else if d = 8 then '8'
  else if d = 9 then '9' else if d = 10 then 'a' else if d = 11 then 'b'
  else if d = 12 then 'c' else if d = 13 then 'd' else if d = 14 then 'e'
  else 'f'

/-- Four-digit fixed-width hex, as in a `\uXXXX` escape. -/
def hex4 (n : Nat) : List Char :=
  [hexDigit (n / 4096 % 16), hexDigit (n / 256 % 16),
   hexDigit (n / 16 % 16), hexDigit (n % 16)]

/-- `json.dumps` escaping of one character (`ensure_ascii=True` default):
`"` and `\` and the C0 short escapes, `\uXXXX` for other control or non-ASCII
characters, and a surrogate pair for code points above `0xFFFF`. -/
def escChar (c : Char) : List Char :=
  if c = '"' then ['\\', '"']
  else if c = '\\' then ['\\', '\\']
  else if c = '\n' then ['\\', 'n']
  else if c = '\r' then ['\\', 'r']
  else if c = '\t' then ['\\', 't']
  else if c = '\x08' then ['\\', 'b']
  else if c = '\x0c' then ['\\', 'f']
  else if c.toNat < 0x20 then '\\' :: 'u' :: hex4 c.toNat
  else if c.toNat < 0x7f then [c]
  else if c.toNat < 0x10000 then '\\' :: 'u' :: hex4 c.toNat
  else
    '\\' :: 'u' :: hex4 (0xD800 + (c.toNat - 0x10000) / 0x400) ++
      ('\\' :: 'u' :: hex4 (0xDC00 + (c.toNat - 0x10000) % 0x400))

def escapeStr : List Char → List Char
  | [] => []
  | c :: t => escChar c ++ escapeStr t

/-- Decimal digits, most significant first, with recursion fuel. -/
def natDigitsAux : Nat → Nat → List Char
  | 0, _ => []
  | fuel + 1, n =>
    if n < 10 then [hexDigit n]
    else natDigitsAux fuel (n / 10) ++ [hexDigit (n % 10)]

/-- Decimal digits of a natural number, most significant first. -/
def natDigits (n : Nat) : List Char := natDigitsAux (n + 1) n

theorem natDigitsAux_extra :
    ∀ f1 f2 n : Nat, n < f1 → n < f2 → natDigitsAux f1 n = natDigitsAux f2 n := by
  intro f1
  induction f1 with
  | zero => intro f2 n h1 _; omega
  | succ f1 ih =>
    intro f2 n h1 h2
    cases f2 with
    | zero => omega
    | succ f2 =>
      rw [natDigitsAux, natDigitsAux]
      by_cases h : n < 10
      · rw [if_pos h, if_pos h]
      · rw [if_neg h, if_neg h, ih f2 (n / 10) (by omega) (by omega)]

/-- Python `repr` of an integer. -/
def intRepr (n : Int) : List Char :=
  if n < 0 then '-' :: natDigits n.natAbs else natDigits n.natAbs

mutual

/-- `json.dumps(v)` with default arguments (separators `", "` and `": "`). -/
def dumps : JVal → List Char
  | .jnull => ['n', 'u', 'l', 'l']
  | .jbool true => ['t', 'r', 'u', 'e']
  | .jbool false => ['f', 'a', 'l', 's', 'e']
  | .jnum n => intRepr n
  | .jstr s => '"' :: (escapeStr s ++ ['"'])
  | .jarr xs => '[' :: (dumpsElems xs ++ [']'])
  | .jobj kvs => '{' :: (dumpsMembers kvs ++ ['}'])

def dumpsElems : List JVal → List Char
  | [] => []
  | [x] => dumps x
  | x :: y :: t => dumps x ++ (',' :: ' ' :: dumpsElems (y :: t))

def dumpsMembers : List (List Char × JVal) → List Char
  | [] => []
  | [(k, v)] => '"' :: (escapeStr k ++ ('"' :: ':' :: ' ' :: dumps v))
  | (k, v) :: m :: t =>
    ('"' :: (escapeStr k ++ ('"' :: ':' :: ' ' :: dumps v))) ++
      (',' :: ' ' :: dumpsMembers (m :: t))

end

/-! ### Parsing (`json.loads`) -/

/-- Whitespace skipped between JSON tokens. -/
def isJsonWs (c : Char) : Bool := c = ' ' || c = '\t' || c = '\n' || c = '\r'

def hexVal (c : Char) : Option Nat :=
  if '0' ≤ c ∧ c ≤ '9' then some (c.toNat - 48)
  else if 'a' ≤ c ∧ c ≤ 'f' then some (c.toNat - 87)
  else if 'A' ≤ c ∧ c ≤ 'F' then some (c.toNat - 55)
  else none

def hex4Val (a b c d : Char) : Option Nat := do
  let x ← hexVal a
  let y ← hexVal b
  let z ← hexVal c
  let w ← hexVal d
  pure (x * 4096 + y * 256 + z * 16 + w)

/-- Decode the trailing `\uXXXX` of a surrogate pair whose leading
surrogate decoded to `n`. -/
def decodeLow (n : Nat) : List Char → Option (Char × List Char)
  | e1 :: e2 :: a :: b :: c :: d :: r =>
    if e1 = '\\' ∧ e2 = 'u' then
      match hex4Val a b c d with
      | none => none
      | some m =>
        if 0xDC00 ≤ m ∧ m ≤ 0xDFFF then
          some (Char.ofNat (0x10000 + (n - 0xD800) * 0x400 + (m - 0xDC00)), r)
        else none
    else none
  | _ => none

/-- Decode the `XXXX` of a `\uXXXX` escape, combining a surrogate pair; a
lone-surrogate escape is rejected (a lone surrogate is not a Unicode scalar
value, so such a string is not representable here). -/
def decodeHex : List Char → Option (Char × List Char)
  | a :: b :: c :: d :: r =>
    match hex4Val a b c d with
    | none => none
    | some n =>
      if 0xD800 ≤ n ∧ n ≤ 0xDBFF then decodeLow n r
      else if 0xDC00 ≤ n ∧ n ≤ 0xDFFF then none
      else some (Char.ofNat n, r)
  | _ => none

/-- Decode one escape sequence (the `\` already consumed), giving the decoded
character and the remaining input. -/
def decodeEsc : List Char → Option (Char × List Char)
  | [] => none
  | e :: r =>
    if e = '"' then some ('"', r)
    else if e = '\\' then some ('\\', r)
    else if e = '/' then some ('/', r)
    else if e = 'n' then some ('\n', r)
    else if e = 'r' then some ('\r', r)
    else if e = 't' then some ('\t', r)
    else if e = 'b' then some ('\x08', r)
    else if e = 'f' then some ('\x0c', r)
    else if e = 'u' then decodeHex r
    else none

theorem decodeLow_length {n : Nat} {s : List Char} {ch : Char} {r : List Char}
    (h : decodeLow n s = some (ch, r)) : r.length < s.length := by
  rw [decodeLow.eq_def] at h
  split at h
  · split at h
    · split at h
      · simp at h
      · split at h
        · simp only [Option.some_inj, Prod.mk.injEq] at h
          obtain ⟨-, rfl⟩ := h
          simp only [List.length_cons]
          omega
        · simp at h
    · simp at h
  · simp at h

theorem decodeHex_length {s : List Char} {ch : Char} {r : List Char}
    (h : decodeHex s = some (ch, r)) : r.length < s.length := by
  rw [decodeHex.eq_def] at h
  split at h
  · split at h
    · simp at h
    · split at h
      · have := decodeLow_length h
        simp only [List.length_cons]
        omega
      · split at h
        · simp at h
        · simp only [Option.some_inj, Prod.mk.injEq] at h
          obtain ⟨-, rfl⟩ := h
          simp only [List.length_cons]
          omega
  · simp at h

theorem decodeEsc_length {s : List Char} {ch : Char} {r : List Char}
    (h : decodeEsc s = some (ch, r)) : r.length < s.length := by
  rw [decodeEsc.eq_def] at h
  split at h
  · simp at h
  · repeat' split at h
    all_goals
      first
      | (simp only [Option.some_inj, Prod.mk.injEq] at h
         obtain ⟨-, rfl⟩ := h
         simp only [List.length_cons]
         omega)
      | (have hlen := decodeHex_length h
         simp only [List.length_cons]
         omega)
      | simp at h

/-- Parse a JSON string body (the opening `"` already consumed), returning the
decoded characters and the remaining input.  Escape handling mirrors the
Python decoder: the standard short escapes, `\uXXXX`, and surrogate-pair
recombination; unescaped control characters are rejected (strict mode). -/
def parseStrF : Nat → List Char → Option (List Char × List Char)
  | 0, _ => none
  | _ + 1, [] => none
  | fuel + 1, c :: rest =>
    if c = '"' then some ([], rest)
    else if c = '\\' then
      match decodeEsc rest with
      | none => none
      | some (ch, r) => (parseStrF fuel r).map (fun p => (ch :: p.1, p.2))
    else if c.toNat < 0x20 then none
    else (parseStrF fuel rest).map (fun p => (c :: p.1, p.2))

def parseStr (s : List Char) : Option (List Char × List Char) :=
  parseStrF (s.length + 1) s

theorem parseStrF_extra :
    ∀ f1 f2 s, s.length < f1 → s.length < f2 → parseStrF f1 s = parseStrF f2 s := by
  intro f1
  induction f1 with
  | zero => intro f2 s h1 _; omega
  | succ f1 ih =>
    intro f2 s h1 h2
    cases f2 with
    | zero => omega
    | succ f2 =>
      cases s with
      | nil => rfl
      | cons c rest =>
        simp only [List.length_cons] at h1 h2
        rw [parseStrF, parseStrF]
        by_cases hq : c = '"'
        · rw [if_pos hq, if_pos hq]
        · rw [if_neg hq, if_neg hq]
          by_cases hb : c = '\\'
          · rw [if_pos hb, if_pos hb]
            cases hde : decodeEsc rest with
            | none => rfl
            | some p =>
              obtain ⟨ch, r⟩ := p
              have hlen := decodeEsc_length hde
              show (parseStrF f1 r).map (fun p => (ch :: p.1, p.2)) =
                (parseStrF f2 r).map (fun p => (ch :: p.1, p.2))
              rw [ih f2 r (by omega) (by omega)]
          · rw [if_neg hb, if_neg hb]
            by_cases hc : c.toNat < 0x20
            · rw [if_pos hc, if_pos hc]
            · rw [if_neg hc, if_neg hc, ih f2 rest (by omega) (by omega)]

def digitVal (c : Char) : Nat := c.toNat - 48

def digitsVal (ds : List Char) : Nat :=
  ds.foldl (fun a c => a * 10 + digitVal c) 0

def isDigitCh (c : Char) : Bool := 48 ≤ c.toNat && c.toNat ≤ 57

/-- Parse an unsigned JSON integer literal (`0` or a nonzero-leading digit
run, as in the Python `json` number grammar). -/
def parseUNat : List Char → Option (Nat × List Char)
  | [] => none
  | c :: t =>
    if c = '0' then some (0, t)
    else if isDigitCh c then
      some (digitsVal (c :: t.takeWhile isDigitCh), t.dropWhile isDigitCh)
    else none

def parseNum : List Char → Option (Int × List Char)
  | [] => none
  | c :: t =>
    if c = '-' then (parseUNat t).map (fun p => (-(p.1 : Int), p.2))
    else (parseUNat (c :: t)).map (fun p => ((p.1 : Int), p.2))

mutual

/-- Fuel-indexed JSON value parser (the Python `json` scanner). -/
def parseVal : Nat → List Char → Option (JVal × List Char)
  | 0, _ => none
  | fuel + 1, s =>
    match s.dropWhile isJsonWs with
    | [] => none
    | c :: rest =>
      if c = '"' then (parseStr rest).map (fun p => (.jstr p.1, p.2))
      else if c = '[' then
        match rest.dropWhile isJsonWs with
        | ']' :: r2 => some (.jarr [], r2)
        | _ => (parseArrLoop fuel rest).map (fun p => (.jarr p.1, p.2))
      else if c = '{' then
        match rest.dropWhile isJsonWs with
        | '}' :: r2 => some (.jobj [], r2)
        | _ => (parseObjLoop fuel rest).map (fun p => (.jobj p.1, p.2))
      else if c = 'n' then
        match rest with
        | 'u' :: 'l' :: 'l' :: r => some (.jnull, r)
        | _ => none
      else if c = 't' then
        match rest with
        | 'r' :: 'u' :: 'e' :: r => some (.jbool true, r)
        | _ => none
      else if c = 'f' then
        match rest with
        | 'a' :: 'l' :: 's' :: 'e' :: r => some (.jbool false, r)
        | _ => none
      else (parseNum (c :: rest)).map (fun p => (.jnum p.1, p.2))
  termination_by structural fuel _ => fuel

/-- Elements of a non-empty array, expecting a value next. -/
def parseArrLoop : Nat → List Char → Option (List JVal × List Char)
  | 0, _ => none
  | fuel + 1, s =>
    match parseVal fuel s with
    | none => none
    | some (v, r) =>
      match r.dropWhile isJsonWs with
      | ']' :: r2 => some ([v], r2)
      | ',' :: r2 => (parseArrLoop fuel r2).map (fun p => (v :: p.1, p.2))
      | _ => none
  termination_by structural fuel _ => fuel

/-- Members of a non-empty object, expecting a `"key": value` pair next. -/
def parseObjLoop : Nat → List Char → Option (List (List Char × JVal) × List Char)
  | 0, _ => none
  | fuel + 1, s =>
    match s.dropWhile isJsonWs with
    | '"' :: rest =>
      match parseStr rest with
      | none => none
      | some (k, r) =>
        match r.dropWhile isJsonWs with
        | ':' :: r2 =>
          match parseVal fuel r2 with
          | none => none
          | some (v, r3) =>
            match r3.dropWhile isJsonWs with
            | '}' :: r4 => some ([(k, v)], r4)
            | ',' :: r4 => (parseObjLoop fuel r4).map (fun p => ((k, v) :: p.1, p.2))
            | _ => none
        | _ => none
    | _ => none
  termination_by structural fuel _ => fuel

end

/-- `json.loads`: parse a complete document, allowing surrounding
whitespace only. -/
def loads (s : List Char) : Option JVal :=
  match parseVal (s.length + 1) s with
  | some (v, rest) => if rest.all isJsonWs then some v else none
  | none => none

/-! ### The serializer/parser round trip -/

theorem hexVal_hexDigit {d : Nat} (h : d < 16) : hexVal (hexDigit d) = some d := by
  have hd : d = 0 ∨ d = 1 ∨ d = 2 ∨ d = 3 ∨ d = 4 ∨ d = 5 ∨ d = 6 ∨ d = 7 ∨
      d = 8 ∨ d = 9 ∨ d = 10 ∨ d = 11 ∨ d = 12 ∨ d = 13 ∨ d = 14 ∨ d = 15 := by omega
  rcases hd with rfl | rfl | rfl | rfl | rfl | rfl | rfl | rfl | rfl | rfl | rfl | rfl |
    rfl | rfl | rfl | rfl <;> decide

theorem hex4Val_hex4 {n : Nat} (h : n < 65536) :
    hex4Val (hexDigit (n / 4096 % 16)) (hexDigit (n / 256 % 16))
      (hexDigit (n / 16 % 16)) (hexDigit (n % 16)) = some n := by
  rw [hex4Val, hexVal_hexDigit (by omega), hexVal_hexDigit (by omega),
    hexVal_hexDigit (by omega), hexVal_hexDigit (by omega)]
  show some _ = some n
  congr 1
  omega

/-- Every code point of a `Char` avoids the surrogate block. -/
theorem char_scalar (c : Char) :
    c.toNat < 0xD800 ∨ (0xDFFF < c.toNat ∧ c.toNat < 0x110000) := c.valid

theorem parseStr_quote (r : List Char) : parseStr ('"' :: r) = some ([], r) := by
  rw [parseStr, parseStrF, if_pos rfl]

theorem parseStr_esc {rest : List Char} {ch : Char} {r : List Char}
    (h : decodeEsc rest = some (ch, r)) :
    parseStr ('\\' :: rest) = (parseStr r).map (fun p => (ch :: p.1, p.2)) := by
  rw [parseStr, parseStrF, if_neg (by decide), if_pos rfl, h]
  show (parseStrF (rest.length + 1) r).map (fun p => (ch :: p.1, p.2)) =
    (parseStrF (r.length + 1) r).map (fun p => (ch :: p.1, p.2))
  rw [parseStrF_extra (rest.length + 1) (r.length + 1) r
    (by have := decodeEsc_length h; omega) (by omega)]

theorem parseStr_plain {c : Char} (h1 : ¬c = '"') (h2 : ¬c = '\\')
    (h3 : ¬c.toNat < 0x20) (r : List Char) :
    parseStr (c :: r) = (parseStr r).map (fun p => (c :: p.1, p.2)) := by
  rw [parseStr, parseStr, parseStrF, if_neg h1, if_neg h2, if_neg h3]
  rfl

theorem decodeEsc_u (r : List Char) : decodeEsc ('u' :: r) = decodeHex r := by
  rw [decodeEsc, if_neg (by decide), if_neg (by decide), if_neg (by decide),
    if_neg (by decide), if_neg (by decide), if_neg (by decide), if_neg (by decide),
    if_neg (by decide), if_pos rfl]

theorem decodeHex_plain {n : Nat} (hlt : n < 65536)
    (h1 : ¬(0xD800 ≤ n ∧ n ≤ 0xDBFF)) (h2 : ¬(0xDC00 ≤ n ∧ n ≤ 0xDFFF))
    (r : List Char) :
    decodeHex (hexDigit (n / 4096 % 16) :: hexDigit (n / 256 % 16) ::
        hexDigit (n / 16 % 16) :: hexDigit (n % 16) :: r) =
      some (Char.ofNat n, r) := by
  rw [decodeHex, hex4Val_hex4 hlt]
  simp only [Option.some_bind, if_neg h1, if_neg h2]

theorem decodeHex_surrogate {n m : Nat} (hn : n < 65536) (hm : m < 65536)
    (hhi : 0xD800 ≤ n ∧ n ≤ 0xDBFF) (hlo : 0xDC00 ≤ m ∧ m ≤ 0xDFFF)
    (r : List Char) :
    decodeHex (hexDigit (n / 4096 % 16) :: hexDigit (n / 256 % 16) ::
        hexDigit (n / 16 % 16) :: hexDigit (n % 16) :: '\\' :: 'u' ::
        hexDigit (m / 4096 % 16) :: hexDigit (m / 256 % 16) ::
        hexDigit (m / 16 % 16) :: hexDigit (m % 16) :: r) =
      some (Char.ofNat (0x10000 + (n - 0xD800) * 0x400 + (m - 0xDC00)), r) := by
  rw [decodeHex, hex4Val_hex4 hn]
  simp only [Option.some_bind, if_pos hhi]
  rw [decodeLow, if_pos (⟨rfl, rfl⟩ : ('\\' : Char) = '\\' ∧ ('u' : Char) = 'u'),
    hex4Val_hex4 hm]
  simp only [Option.some_bind, if_pos hlo]

theorem parseStr_escapeStr : ∀ (s rest : List Char),
    parseStr (escapeStr s ++ ('"' :: rest)) = some (s, rest) := by
  intro s
  induction s with
  | nil => intro rest; rw [escapeStr, List.nil_append, parseStr_quote]
  | cons c t ih =>
    intro rest
    show parseStr ((escChar c ++ escapeStr t) ++ _) = _
    rw [List.append_assoc]
    by_cases h1 : c = '"'
    · subst h1
      rw [show escChar '"' = ['\\', '"'] from by decide]
      simp only [List.cons_append, List.nil_append]
      rw [parseStr_esc (by rw [decodeEsc, if_pos rfl]), ih]
      rfl
    by_cases h2 : c = '\\'
    · subst h2
      rw [show escChar '\\' = ['\\', '\\'] from by decide]
      simp only [List.cons_append, List.nil_append]
      rw [parseStr_esc (by rw [decodeEsc, if_neg (by decide), if_pos rfl]), ih]
      rfl
    by_cases h3 : c = '\n'
    · subst h3
      rw [show escChar '\n' = ['\\', 'n'] from by decide]
      simp only [List.cons_append, List.nil_append]
      rw [parseStr_esc (by rw [decodeEsc, if_neg (by decide), if_neg (by decide),
        if_neg (by decide), if_pos rfl]), ih]
      rfl
    by_cases h4 : c = '\r'
    · subst h4
      rw [show escChar '\r' = ['\\', 'r'] from by decide]
      simp only [List.cons_append, List.nil_append]
      rw [parseStr_esc (by rw [decodeEsc, if_neg (by decide), if_neg (by decide),
        if_neg (by decide), if_neg (by decide), if_pos rfl]), ih]
      rfl
    by_cases h5 : c = '\t'
    · subst h5
      rw [show escChar '\t' = ['\\', 't'] from by decide]
      simp only [List.cons_append, List.nil_append]
      rw [parseStr_esc (by rw [decodeEsc, if_neg (by decide), if_neg (by decide),
        if_neg (by decide), if_neg (by decide), if_neg (by decide), if_pos rfl]), ih]
      rfl
    by_cases h6 : c = '\x08'
    · subst h6
      rw [show escChar '\x08' = ['\\', 'b'] from by decide]
      simp only [List.cons_append, List.nil_append]
      rw [parseStr_esc (by rw [decodeEsc, if_neg (by decide), if_neg (by decide),
        if_neg (by decide), if_neg (by decide), if_neg (by decide), if_neg (by decide),
        if_pos rfl]), ih]
      rfl
    by_cases h7 : c = '\x0c'
    · subst h7
      rw [show escChar '\x0c' = ['\\', 'f'] from by decide]
      simp only [List.cons_append, List.nil_append]
      rw [parseStr_esc (by rw [decodeEsc, if_neg (by decide), if_neg (by decide),
        if_neg (by decide), if_neg (by decide), if_neg (by decide), if_neg (by decide),
        if_neg (by decide), if_pos rfl]), ih]
      rfl
    by_cases h8 : c.toNat < 0x20
    · -- other control characters: a `\u00XX` escape
      rw [escChar, if_neg h1, if_neg h2, if_neg h3, if_neg h4, if_neg h5, if_neg h6,
        if_neg h7, if_pos h8, hex4]
      simp only [List.cons_append, List.nil_append]
      rw [parseStr_esc (by rw [decodeEsc_u,
        decodeHex_plain (by omega) (by omega) (by omega)]), ih, Char.ofNat_toNat]
      rfl
    by_cases h9 : c.toNat < 0x7f
    · -- printable ASCII: emitted raw
      rw [escChar, if_neg h1, if_neg h2, if_neg h3, if_neg h4, if_neg h5, if_neg h6,
        if_neg h7, if_neg h8, if_pos h9]
      simp only [List.cons_append, List.nil_append]
      rw [parseStr_plain h1 h2 h8, ih]
      rfl
    by_cases h10 : c.toNat < 0x10000
    · -- non-ASCII basic-plane character: a `\uXXXX` escape
      have hs := char_scalar c
      rw [escChar, if_neg h1, if_neg h2, if_neg h3, if_neg h4, if_neg h5, if_neg h6,
        if_neg h7, if_neg h8, if_neg h9, if_pos h10, hex4]
      simp only [List.cons_append, List.nil_append]
      rw [parseStr_esc (by rw [decodeEsc_u,
        decodeHex_plain (by omega) (by omega) (by omega)]), ih, Char.ofNat_toNat]
      rfl
    · -- astral character: a surrogate pair
      have hs := char_scalar c
      rw [escChar, if_neg h1, if_neg h2, if_neg h3, if_neg h4, if_neg h5, if_neg h6,
        if_neg h7, if_neg h8, if_neg h9, if_neg h10, hex4, hex4]
      simp only [List.cons_append, List.nil_append, List.append_assoc]
      rw [parseStr_esc (by rw [decodeEsc_u,
        decodeHex_surrogate (by omega) (by omega) (by omega) (by omega)]), ih]
      have harith : 0x10000 + (0xD800 + (c.toNat - 0x10000) / 0x400 - 0xD800) * 0x400 +
          (0xDC00 + (c.toNat - 0x10000) % 0x400 - 0xDC00) = c.toNat := by omega
      rw [harith, Char.ofNat_toNat]
      rfl

/-- The input ahead does not start with a digit (so a digit run ends there). -/
def headOkNum : List Char → Bool
  | [] => true
  | c :: _ => !isDigitCh c

theorem digitVal_hexDigit {d : Nat} (h : d < 10) : digitVal (hexDigit d) = d := by
  have hd : d = 0 ∨ d = 1 ∨ d = 2 ∨ d = 3 ∨ d = 4 ∨ d = 5 ∨ d = 6 ∨ d = 7 ∨
      d = 8 ∨ d = 9 := by omega
  rcases hd with rfl | rfl | rfl | rfl | rfl | rfl | rfl | rfl | rfl | rfl <;> decide

theorem isDigitCh_hexDigit {d : Nat} (h : d < 10) : isDigitCh (hexDigit d) = true := by
  have hd : d = 0 ∨ d = 1 ∨ d = 2 ∨ d = 3 ∨ d = 4 ∨ d = 5 ∨ d = 6 ∨ d = 7 ∨
      d = 8 ∨ d = 9 := by omega
  rcases hd with rfl | rfl | rfl | rfl | rfl | rfl | rfl | rfl | rfl | rfl <;> decide

theorem hexDigit_ne_zero {d : Nat} (h0 : 0 < d) (h : d < 10) : ¬hexDigit d = '0' := by
  have hd : d = 1 ∨ d = 2 ∨ d = 3 ∨ d = 4 ∨ d = 5 ∨ d = 6 ∨ d = 7 ∨
      d = 8 ∨ d = 9 := by omega
  rcases hd with rfl | rfl | rfl | rfl | rfl | rfl | rfl | rfl | rfl <;> decide

theorem natDigits_eq_small {n : Nat} (h : n < 10) : natDigits n = [hexDigit n] := by
  rw [natDigits, natDigitsAux, if_pos h]

theorem natDigits_eq_big {n : Nat} (h : ¬n < 10) :
    natDigits n = natDigits (n / 10) ++ [hexDigit (n % 10)] := by
  rw [natDigits, natDigits, natDigitsAux, if_neg h,
    natDigitsAux_extra n (n / 10 + 1) (n / 10) (by omega) (by omega)]

theorem natDigits_ne_nil (n : Nat) : natDigits n ≠ [] := by
  by_cases h : n < 10
  · rw [natDigits_eq_small h]; simp
  · rw [natDigits_eq_big h]; simp

theorem natDigits_all_digits :
    ∀ n c, c ∈ natDigits n → isDigitCh c = true := by
  intro n
  induction n using Nat.strong_induction_on with
  | _ n ih =>
    intro c hc
    by_cases h : n < 10
    · rw [natDigits_eq_small h] at hc
      simp only [List.mem_singleton] at hc
      subst hc
      exact isDigitCh_hexDigit h
    · rw [natDigits_eq_big h] at hc
      rcases List.mem_append.mp hc with hc | hc
      · exact ih (n / 10) (by omega) c hc
      · simp only [List.mem_singleton] at hc
        subst hc
        exact isDigitCh_hexDigit (by omega)

theorem natDigits_head_ne_zero :
    ∀ n, 0 < n → ∀ {c : Char} {t : List Char}, natDigits n = c :: t → ¬c = '0' := by
  intro n
  induction n using Nat.strong_induction_on with
  | _ n ih =>
    intro hn c t hct
    by_cases h : n < 10
    · rw [natDigits_eq_small h] at hct
      cases hct
      exact hexDigit_ne_zero hn h
    · rw [natDigits_eq_big h] at hct
      cases hnd : natDigits (n / 10) with
      | nil => exact absurd hnd (natDigits_ne_nil _)
      | cons c0 t0 =>
        rw [hnd, List.cons_append] at hct
        cases hct
        exact ih (n / 10) (by omega) (by omega) hnd

theorem digitsVal_append_digit (a : List Char) (d : Char) :
    digitsVal (a ++ [d]) = digitsVal a * 10 + digitVal d := by
  simp [digitsVal, List.foldl_append]

theorem digitsVal_natDigits : ∀ n, digitsVal (natDigits n) = n := by
  intro n
  induction n using Nat.strong_induction_on with
  | _ n ih =>
    by_cases h : n < 10
    · rw [natDigits_eq_small h]
      simp [digitsVal, digitVal_hexDigit h]
    · rw [natDigits_eq_big h, digitsVal_append_digit, ih (n / 10) (by omega),
        digitVal_hexDigit (by omega)]
      omega

theorem span_digits :
    ∀ (a rest : List Char), (∀ c ∈ a, isDigitCh c = true) → headOkNum rest = true →
      (a ++ rest).takeWhile isDigitCh = a ∧ (a ++ rest).dropWhile isDigitCh = rest := by
  intro a
  induction a with
  | nil =>
    intro rest _ hr
    cases rest with
    | nil => simp
    | cons c t =>
      rw [headOkNum] at hr
      simp only [Bool.not_eq_true'] at hr
      simp [List.takeWhile, List.dropWhile, hr]
  | cons c a ih =>
    intro rest ha hr
    have hc : isDigitCh c = true := ha c (by simp)
    have := ih rest (fun x hx => ha x (by simp [hx])) hr
    simp [List.takeWhile, List.dropWhile, hc, this.1, this.2]

theorem parseUNat_natDigits (n : Nat) (rest : List Char) (hr : headOkNum rest = true) :
    parseUNat (natDigits n ++ rest) = some (n, rest) := by
  have hspan0 : rest.takeWhile isDigitCh = [] ∧ rest.dropWhile isDigitCh = rest := by
    have := span_digits [] rest (by simp) hr
    simpa using this
  by_cases h : n < 10
  · rw [natDigits_eq_small h]
    by_cases h0 : n = 0
    · subst h0
      rw [show hexDigit 0 = '0' from rfl]
      simp only [List.cons_append, List.nil_append]
      rw [parseUNat, if_pos rfl]
    · have hne := hexDigit_ne_zero (by omega) h
      have hd := isDigitCh_hexDigit h
      simp only [List.cons_append, List.nil_append]
      rw [parseUNat, if_neg hne, if_pos hd, hspan0.1, hspan0.2]
      simp [digitsVal, digitVal_hexDigit h]
  · rw [natDigits_eq_big h]
    obtain ⟨c0, t0, hnd⟩ : ∃ c0 t0, natDigits (n / 10) = c0 :: t0 := by
      cases hnd : natDigits (n / 10) with
      | nil => exact absurd hnd (natDigits_ne_nil _)
      | cons a b => exact ⟨a, b, rfl⟩
    rw [hnd]
    have hc0digit : isDigitCh c0 = true :=
      natDigits_all_digits (n / 10) c0 (by rw [hnd]; simp)
    have hc0ne : ¬c0 = '0' := natDigits_head_ne_zero (n / 10) (by omega) hnd
    have hall : ∀ c ∈ t0 ++ [hexDigit (n % 10)], isDigitCh c = true := by
      intro c hc
      rcases List.mem_append.mp hc with hc | hc
      · exact natDigits_all_digits (n / 10) c (by rw [hnd]; simp [hc])
      · simp only [List.mem_singleton] at hc
        subst hc
        exact isDigitCh_hexDigit (by omega)
    have hspan := span_digits (t0 ++ [hexDigit (n % 10)]) rest hall hr
    simp only [List.cons_append, List.append_assoc]
    rw [parseUNat, if_neg hc0ne, if_pos hc0digit]
    have hshape : t0 ++ hexDigit (n % 10) :: ([] ++ rest) =
        (t0 ++ [hexDigit (n % 10)]) ++ rest := by simp
    rw [hshape, hspan.1, hspan.2]
    have hval : digitsVal (c0 :: (t0 ++ [hexDigit (n % 10)])) = n := by
      have : c0 :: (t0 ++ [hexDigit (n % 10)]) = (c0 :: t0) ++ [hexDigit (n % 10)] := by
        simp
      rw [this, digitsVal_append_digit, ← hnd, digitsVal_natDigits,
        digitVal_hexDigit (by omega)]
      omega
    rw [hval]

theorem parseNum_intRepr (k : Int) (rest : List Char) (hr : headOkNum rest = true) :
    parseNum (intRepr k ++ rest) = some (k, rest) := by
  rw [intRepr]
  by_cases h : k < 0
  · rw [if_pos h]
    simp only [List.cons_append]
    rw [parseNum, if_pos rfl, parseUNat_natDigits _ _ hr]
    simp only [Option.map_some', Option.some_inj, Prod.mk.injEq]
    exact ⟨by omega, by trivial⟩
  · rw [if_neg h]
    obtain ⟨c0, t0, hnd⟩ : ∃ c0 t0, natDigits k.natAbs = c0 :: t0 := by
      cases hnd : natDigits k.natAbs with
      | nil => exact absurd hnd (natDigits_ne_nil _)
      | cons a b => exact ⟨a, b, rfl⟩
    have hc0digit : isDigitCh c0 = true :=
      natDigits_all_digits k.natAbs c0 (by rw [hnd]; simp)
    have hc0ne : ¬c0 = '-' := by
      intro e
      subst e
      simp [isDigitCh] at hc0digit
    rw [hnd, List.cons_append, parseNum, if_neg hc0ne, ← List.cons_append, ← hnd,
      parseUNat_natDigits _ _ hr]
    simp only [Option.map_some', Option.some_inj, Prod.mk.injEq]
    exact ⟨by omega, by trivial⟩

/-! ### The value round trip -/

mutual

/-- Fuel bound sufficient to parse a value's serialization. -/
def jsize : JVal → Nat
  | .jnull | .jbool _ | .jnum _ | .jstr _ => 1
  | .jarr xs => jsizeL xs + 1
  | .jobj kvs => jsizeKV kvs + 1

def jsizeL : List JVal → Nat
  | [] => 0
  | x :: t => jsize x + jsizeL t + 1

def jsizeKV : List (List Char × JVal) → Nat
  | [] => 0
  | (_, v) :: t => jsize v + jsizeKV t + 1

end

theorem digit_head_facts {c : Char} (h : isDigitCh c = true) :
    isJsonWs c = false ∧ ¬c = '"' ∧ ¬c = '[' ∧ ¬c = '{' ∧ ¬c = 'n' ∧ ¬c = 't' ∧
      ¬c = 'f' ∧ ¬c = ']' ∧ ¬c = '}' ∧ ¬c = ',' := by
  refine ⟨?_, ?_, ?_, ?_, ?_, ?_, ?_, ?_, ?_, ?_⟩ <;>
    first
    | (intro e; subst e; exact absurd h (by decide))
    | (by_cases hw : isJsonWs c = true
       · rw [isJsonWs] at hw
         simp only [Bool.or_eq_true, decide_eq_true_eq] at hw
         rcases hw with ((rfl | rfl) | rfl) | rfl <;> exact absurd h (by decide)
       · simpa using hw)

/-- The first character of a serialized value: never whitespace and never a
closing delimiter or separator. -/
theorem dumps_head (v : JVal) :
    ∃ c cs, dumps v = c :: cs ∧ isJsonWs c = false ∧ ¬c = ']' ∧ ¬c = '}' ∧
      ¬c = ',' := by
  cases v with
  | jnull => exact ⟨'n', _, rfl, by decide, by decide, by decide, by decide⟩
  | jbool b => cases b with
    | true => exact ⟨'t', _, rfl, by decide, by decide, by decide, by decide⟩
    | false => exact ⟨'f', _, rfl, by decide, by decide, by decide, by decide⟩
  | jnum k =>
    show ∃ c cs, intRepr k = c :: cs ∧ _
    rw [intRepr]
    by_cases h : k < 0
    · rw [if_pos h]
      exact ⟨'-', _, rfl, by decide, by decide, by decide, by decide⟩
    · rw [if_neg h]
      obtain ⟨c0, t0, hnd⟩ : ∃ c0 t0, natDigits k.natAbs = c0 :: t0 := by
        cases hnd : natDigits k.natAbs with
        | nil => exact absurd hnd (natDigits_ne_nil _)
        | cons a b => exact ⟨a, b, rfl⟩
      have hd : isDigitCh c0 = true :=
        natDigits_all_digits k.natAbs c0 (by rw [hnd]; simp)
      obtain ⟨hws, -, -, -, -, -, -, h1, h2, h3⟩ := digit_head_facts hd
      exact ⟨c0, t0, hnd, hws, h1, h2, h3⟩
  | jstr s => exact ⟨'"', _, rfl, by decide, by decide, by decide, by decide⟩
  | jarr xs => exact ⟨'[', _, rfl, by decide, by decide, by decide, by decide⟩
  | jobj kvs => exact ⟨'{', _, rfl, by decide, by decide, by decide, by decide⟩

theorem dropWhile_ws_cons {c : Char} {s : List Char} (h : isJsonWs c = false) :
    (c :: s).dropWhile isJsonWs = c :: s := by
  simp [List.dropWhile_cons, h]

theorem parseVal_ws_skip :
    ∀ (pre : List Char), (∀ c ∈ pre, isJsonWs c = true) →
      ∀ (f : Nat) (s : List Char), parseVal f (pre ++ s) = parseVal f s := by
  intro pre
  induction pre with
  | nil => intro _ f s; rfl
  | cons c t ih =>
    intro hpre f s
    have hc : isJsonWs c = true := hpre c (by simp)
    have ht : ∀ x ∈ t, isJsonWs x = true := fun x hx => hpre x (by simp [hx])
    cases f with
    | zero => rw [parseVal.eq_def, parseVal.eq_def]
    | succ f =>
      have hdw : ((c :: t) ++ s).dropWhile isJsonWs = (t ++ s).dropWhile isJsonWs := by
        simp [List.dropWhile_cons, hc]
      calc parseVal (f + 1) ((c :: t) ++ s) = parseVal (f + 1) (t ++ s) := by
            rw [parseVal, parseVal, hdw]
        _ = parseVal (f + 1) s := ih ht (f + 1) s

theorem parseVal_quote (f : Nat) (rest : List Char) :
    parseVal (f + 1) ('"' :: rest) = (parseStr rest).map (fun p => (.jstr p.1, p.2)) := by
  rw [parseVal, dropWhile_ws_cons (by decide)]
  simp only [Char.reduceEq, reduceIte]

theorem parseVal_null (f : Nat) (rest : List Char) :
    parseVal (f + 1) ('n' :: 'u' :: 'l' :: 'l' :: rest) = some (.jnull, rest) := by
  rw [parseVal, dropWhile_ws_cons (by decide)]
  simp only [Char.reduceEq, reduceIte]

theorem parseVal_true (f : Nat) (rest : List Char) :
    parseVal (f + 1) ('t' :: 'r' :: 'u' :: 'e' :: rest) = some (.jbool true, rest) := by
  rw [parseVal, dropWhile_ws_cons (by decide)]
  simp only [Char.reduceEq, reduceIte]

theorem parseVal_false (f : Nat) (rest : List Char) :
    parseVal (f + 1) ('f' :: 'a' :: 'l' :: 's' :: 'e' :: rest) =
      some (.jbool false, rest) := by
  rw [parseVal, dropWhile_ws_cons (by decide)]
  simp only [Char.reduceEq, reduceIte]

theorem parseVal_num {c : Char} (hws : isJsonWs c = false) (h1 : ¬c = '"')
    (h2 : ¬c = '[') (h3 : ¬c = '{') (h4 : ¬c = 'n') (h5 : ¬c = 't') (h6 : ¬c = 'f')
    (f : Nat) (rest : List Char) :
    parseVal (f + 1) (c :: rest) = (parseNum (c :: rest)).map (fun p => (.jnum p.1, p.2)) := by
  rw [parseVal, dropWhile_ws_cons hws]
  simp only [if_neg h1, if_neg h2, if_neg h3, if_neg h4, if_neg h5, if_neg h6]

theorem parseVal_arr_empty (f : Nat) {rest r2 : List Char}
    (h : rest.dropWhile isJsonWs = ']' :: r2) :
    parseVal (f + 1) ('[' :: rest) = some (.jarr [], r2) := by
  rw [parseVal, dropWhile_ws_cons (by decide)]
  simp only [Char.reduceEq, reduceIte, h]

theorem parseVal_arr_go (f : Nat) {rest : List Char} {c : Char} {r2 : List Char}
    (h : rest.dropWhile isJsonWs = c :: r2) (hc : ¬c = ']') :
    parseVal (f + 1) ('[' :: rest) =
      (parseArrLoop f rest).map (fun p => (.jarr p.1, p.2)) := by
  rw [parseVal, dropWhile_ws_cons (by decide)]
  simp only [Char.reduceEq, reduceIte, h]
  split
  · rename_i heq
    injection heq with h1 _
    exact absurd h1 hc
  · rfl

theorem parseVal_obj_empty (f : Nat) {rest r2 : List Char}
    (h : rest.dropWhile isJsonWs = '}' :: r2) :
    parseVal (f + 1) ('{' :: rest) = some (.jobj [], r2) := by
  rw [parseVal, dropWhile_ws_cons (by decide)]
  simp only [Char.reduceEq, reduceIte, h]

theorem parseVal_obj_go (f : Nat) {rest : List Char} {c : Char} {r2 : List Char}
    (h : rest.dropWhile isJsonWs = c :: r2) (hc : ¬c = '}') :
    parseVal (f + 1) ('{' :: rest) =
      (parseObjLoop f rest).map (fun p => (.jobj p.1, p.2)) := by
  rw [parseVal, dropWhile_ws_cons (by decide)]
  simp only [Char.reduceEq, reduceIte, h]
  split
  · rename_i heq
    injection heq with h1 _
    exact absurd h1 hc
  · rfl

theorem jsize_pos : ∀ v : JVal, 1 ≤ jsize v := by
  intro v; cases v <;> simp [jsize]

theorem jsizeL_pos {xs : List JVal} (h : xs ≠ []) : 1 ≤ jsizeL xs := by
  cases xs with
  | nil => exact absurd rfl h
  | cons x t => rw [jsizeL]; omega

theorem jsizeKV_pos {kvs : List (List Char × JVal)} (h : kvs ≠ []) : 1 ≤ jsizeKV kvs := by
  cases kvs with
  | nil => exact absurd rfl h
  | cons x t => obtain ⟨k, v⟩ := x; rw [jsizeKV]; omega

theorem dropWhile_ws_append {pre : List Char} (h : ∀ c ∈ pre, isJsonWs c = true)
    (s : List Char) : (pre ++ s).dropWhile isJsonWs = s.dropWhile isJsonWs := by
  induction pre with
  | nil => rfl
  | cons c t ih =>
    simp only [List.cons_append, List.dropWhile_cons, h c (by simp)]
    exact ih (fun x hx => h x (by simp [hx]))

theorem dumpsElems_cons (x : JVal) (t : List JVal) :
    ∃ tail, dumpsElems (x :: t) = dumps x ++ tail := by
  cases t with
  | nil => exact ⟨[], by rw [dumpsElems, List.append_nil]⟩
  | cons y t' => exact ⟨_, by rw [dumpsElems]⟩

theorem roundTrip_bounded : ∀ N : Nat,
    (∀ v : JVal, jsize v ≤ N → ∀ f, jsize v ≤ f → ∀ rest, headOkNum rest = true →
      parseVal f (dumps v ++ rest) = some (v, rest)) ∧
    (∀ xs : List JVal, jsizeL xs ≤ N → xs ≠ [] →
      ∀ f, jsizeL xs ≤ f → ∀ rest, headOkNum rest = true →
      ∀ pre, (∀ c ∈ pre, isJsonWs c = true) →
      parseArrLoop f (pre ++ (dumpsElems xs ++ (']' :: rest))) = some (xs, rest)) ∧
    (∀ kvs : List (List Char × JVal), jsizeKV kvs ≤ N → kvs ≠ [] →
      ∀ f, jsizeKV kvs ≤ f → ∀ rest, headOkNum rest = true →
      ∀ pre, (∀ c ∈ pre, isJsonWs c = true) →
      parseObjLoop f (pre ++ (dumpsMembers kvs ++ ('}' :: rest))) = some (kvs, rest)) := by
  intro N
  induction N with
  | zero =>
    refine ⟨?_, ?_, ?_⟩
    · intro v hv
      have := jsize_pos v
      omega
    · intro xs hxs hne
      have := jsizeL_pos hne
      omega
    · intro kvs hkvs hne
      have := jsizeKV_pos hne
      omega
  | succ N ih =>
    obtain ⟨ihV, ihA, ihO⟩ := ih
    refine ⟨?_, ?_, ?_⟩
    · -- values
      intro v hv f hf rest hrest
      obtain ⟨f, rfl⟩ : ∃ f', f = f' + 1 := by
        have := jsize_pos v
        cases f with
        | zero => omega
        | succ f' => exact ⟨f', rfl⟩
      cases v with
      | jnull =>
        show parseVal (f + 1) (['n', 'u', 'l', 'l'] ++ rest) = _
        simp only [List.cons_append, List.nil_append]
        rw [parseVal_null]
      | jbool b =>
        cases b with
        | true =>
          show parseVal (f + 1) (['t', 'r', 'u', 'e'] ++ rest) = _
          simp only [List.cons_append, List.nil_append]
          rw [parseVal_true]
        | false =>
          show parseVal (f + 1) (['f', 'a', 'l', 's', 'e'] ++ rest) = _
          simp only [List.cons_append, List.nil_append]
          rw [parseVal_false]
      | jnum k =>
        show parseVal (f + 1) (intRepr k ++ rest) = _
        obtain ⟨c0, t0, heq, hws, hq, hlb, hob, hn, ht, hfc⟩ :
            ∃ c cs, intRepr k = c :: cs ∧ isJsonWs c = false ∧ ¬c = '"' ∧
              ¬c = '[' ∧ ¬c = '{' ∧ ¬c = 'n' ∧ ¬c = 't' ∧ ¬c = 'f' := by
          rw [intRepr]
          by_cases h : k < 0
          · rw [if_pos h]
            exact ⟨'-', _, rfl, by decide, by decide, by decide, by decide,
              by decide, by decide, by decide⟩
          · rw [if_neg h]
            obtain ⟨c0, t0, hnd⟩ : ∃ c0 t0, natDigits k.natAbs = c0 :: t0 := by
              cases hnd : natDigits k.natAbs with
              | nil => exact absurd hnd (natDigits_ne_nil _)
              | cons a b => exact ⟨a, b, rfl⟩
            have hd : isDigitCh c0 = true :=
              natDigits_all_digits k.natAbs c0 (by rw [hnd]; simp)
            obtain ⟨x1, x2, x3, x4, x5, x6, x7, -, -, -⟩ := digit_head_facts hd
            exact ⟨c0, t0, hnd, x1, x2, x3, x4, x5, x6, x7⟩
        rw [heq, List.cons_append, parseVal_num hws hq hlb hob hn ht hfc,
          ← List.cons_append, ← heq, parseNum_intRepr k rest hrest]
        rfl
      | jstr s =>
        show parseVal (f + 1) (('"' :: (escapeStr s ++ ['"'])) ++ rest) = _
        simp only [List.cons_append, List.append_assoc, List.nil_append]
        rw [parseVal_quote, parseStr_escapeStr]
        rfl
      | jarr xs =>
        cases xs with
        | nil =>
          show parseVal (f + 1) (('[' :: (dumpsElems [] ++ [']'])) ++ rest) = _
          rw [show dumpsElems [] = [] from by rw [dumpsElems]]
          simp only [List.nil_append, List.cons_append]
          exact parseVal_arr_empty f (dropWhile_ws_cons (by decide))
        | cons x t =>
          have hszN : jsizeL (x :: t) ≤ N := by
            have : jsize (JVal.jarr (x :: t)) = jsizeL (x :: t) + 1 := by rw [jsize]
            omega
          have hszf : jsizeL (x :: t) ≤ f := by
            have : jsize (JVal.jarr (x :: t)) = jsizeL (x :: t) + 1 := by rw [jsize]
            omega
          show parseVal (f + 1) (('[' :: (dumpsElems (x :: t) ++ [']'])) ++ rest) = _
          simp only [List.cons_append, List.append_assoc, List.nil_append]
          obtain ⟨tail, htail⟩ := dumpsElems_cons x t
          obtain ⟨c1, cs1, hx, hws1, hne1, -, -⟩ := dumps_head x
          have hshape : dumpsElems (x :: t) ++ (']' :: rest) =
              c1 :: (cs1 ++ (tail ++ (']' :: rest))) := by
            rw [htail, hx]
            simp
          rw [parseVal_arr_go f (by rw [hshape]; exact dropWhile_ws_cons hws1) hne1]
          have hA := ihA (x :: t) hszN (by simp) f hszf rest hrest [] (by simp)
          rw [List.nil_append] at hA
          rw [hA]
          rfl
      | jobj kvs =>
        cases kvs with
        | nil =>
          show parseVal (f + 1) (('{' :: (dumpsMembers [] ++ ['}'])) ++ rest) = _
          rw [show dumpsMembers [] = [] from by rw [dumpsMembers]]
          simp only [List.nil_append, List.cons_append]
          exact parseVal_obj_empty f (dropWhile_ws_cons (by decide))
        | cons kv t =>
          obtain ⟨k, v⟩ := kv
          have hszN : jsizeKV ((k, v) :: t) ≤ N := by
            have : jsize (JVal.jobj ((k, v) :: t)) = jsizeKV ((k, v) :: t) + 1 := by
              rw [jsize]
            omega
          have hszf : jsizeKV ((k, v) :: t) ≤ f := by
            have : jsize (JVal.jobj ((k, v) :: t)) = jsizeKV ((k, v) :: t) + 1 := by
              rw [jsize]
            omega
          show parseVal (f + 1) (('{' :: (dumpsMembers ((k, v) :: t) ++ ['}'])) ++ rest) = _
          simp only [List.cons_append, List.append_assoc, List.nil_append]
          have hmem : ∃ tail, dumpsMembers ((k, v) :: t) = '"' :: tail := by
            cases t with
            | nil => exact ⟨_, by rw [dumpsMembers]⟩
            | cons m t' => exact ⟨_, by rw [dumpsMembers]; rfl⟩
          obtain ⟨tail, htail⟩ := hmem
          have hshape : dumpsMembers ((k, v) :: t) ++ ('}' :: rest) =
              '"' :: (tail ++ ('}' :: rest)) := by
            rw [htail]
            rfl
          rw [parseVal_obj_go f (by rw [hshape]; exact dropWhile_ws_cons (by decide))
            (by decide)]
          have hO := ihO ((k, v) :: t) hszN (by simp) f hszf rest hrest [] (by simp)
          rw [List.nil_append] at hO
          rw [hO]
          rfl
    · -- array elements
      intro xs hN hne f hf rest hrest pre hpre
      cases xs with
      | nil => exact absurd rfl hne
      | cons x t =>
        obtain ⟨f, rfl⟩ : ∃ f', f = f' + 1 := by
          have : 1 ≤ jsizeL (x :: t) := jsizeL_pos (by simp)
          cases f with
          | zero => omega
          | succ f' => exact ⟨f', rfl⟩
        have hsz : jsize x + jsizeL t + 1 ≤ N + 1 := by rw [jsizeL] at hN; exact hN
        have hszf : jsize x + jsizeL t + 1 ≤ f + 1 := by rw [jsizeL] at hf; exact hf
        rw [parseArrLoop]
        cases t with
        | nil =>
          have hV : parseVal f (pre ++ (dumpsElems [x] ++ (']' :: rest))) =
              some (x, ']' :: rest) := by
            rw [parseVal_ws_skip pre hpre,
              show dumpsElems [x] = dumps x from by rw [dumpsElems]]
            exact ihV x (by rw [jsizeL] at hsz; omega) f
              (by rw [jsizeL] at hszf; omega) (']' :: rest) rfl
          rw [hV]
          simp only [dropWhile_ws_cons (show isJsonWs ']' = false from by decide),
            Char.reduceEq, reduceIte]
        | cons y t' =>
          have hsplit : dumpsElems (x :: y :: t') ++ (']' :: rest) =
              dumps x ++ (',' :: ' ' :: (dumpsElems (y :: t') ++ (']' :: rest))) := by
            rw [dumpsElems]
            simp
          have hV : parseVal f
              (pre ++ (dumpsElems (x :: y :: t') ++ (']' :: rest))) =
              some (x, ',' :: ' ' :: (dumpsElems (y :: t') ++ (']' :: rest))) := by
            rw [parseVal_ws_skip pre hpre, hsplit]
            exact ihV x (by rw [jsizeL] at hsz; omega) f
              (by rw [jsizeL] at hszf; omega) _ rfl
          rw [hV]
          simp only [dropWhile_ws_cons (show isJsonWs ',' = false from by decide),
            Char.reduceEq, reduceIte]
          have hA := ihA (y :: t') (by rw [jsizeL] at hsz ⊢; omega) (by simp) f
            (by rw [jsizeL] at hszf ⊢; omega) rest hrest [' '] (by simp [isJsonWs])
          rw [show ([' '] ++ (dumpsElems (y :: t') ++ (']' :: rest))) =
            ' ' :: (dumpsElems (y :: t') ++ (']' :: rest)) from rfl] at hA
          rw [hA]
          rfl
    · -- object members
      intro kvs hN hne f hf rest hrest pre hpre
      cases kvs with
      | nil => exact absurd rfl hne
      | cons kv t =>
        obtain ⟨k, v⟩ := kv
        obtain ⟨f, rfl⟩ : ∃ f', f = f' + 1 := by
          have : 1 ≤ jsizeKV ((k, v) :: t) := jsizeKV_pos (by simp)
          cases f with
          | zero => omega
          | succ f' => exact ⟨f', rfl⟩
        have hsz : jsize v + jsizeKV t + 1 ≤ N + 1 := by rw [jsizeKV] at hN; exact hN
        have hszf : jsize v + jsizeKV t + 1 ≤ f + 1 := by rw [jsizeKV] at hf; exact hf
        rw [parseObjLoop]
        cases t with
        | nil =>
          have hshape : pre ++ (dumpsMembers [(k, v)] ++ ('}' :: rest)) =
              pre ++ ('"' :: (escapeStr k ++
                ('"' :: (':' :: ' ' :: (dumps v ++ ('}' :: rest)))))) := by
            rw [dumpsMembers]
            simp
          rw [hshape, dropWhile_ws_append hpre, dropWhile_ws_cons (by decide)]
          simp only [Char.reduceEq, reduceIte]
          rw [parseStr_escapeStr]
          simp only []
          rw [dropWhile_ws_cons (show isJsonWs ':' = false from by decide)]
          simp only [Char.reduceEq, reduceIte]
          have hV : parseVal f (' ' :: (dumps v ++ ('}' :: rest))) =
              some (v, '}' :: rest) := by
            rw [show (' ' :: (dumps v ++ ('}' :: rest))) =
              [' '] ++ (dumps v ++ ('}' :: rest)) from rfl]
            rw [parseVal_ws_skip [' '] (by simp [isJsonWs])]
            exact ihV v (by rw [jsizeKV] at hsz; omega) f
              (by rw [jsizeKV] at hszf; omega) ('}' :: rest) rfl
          rw [hV]
          simp only [dropWhile_ws_cons (show isJsonWs '}' = false from by decide),
            Char.reduceEq, reduceIte]
        | cons m t' =>
          have hshape : pre ++ (dumpsMembers ((k, v) :: m :: t') ++ ('}' :: rest)) =
              pre ++ ('"' :: (escapeStr k ++ ('"' :: (':' :: ' ' :: (dumps v ++
                (',' :: ' ' :: (dumpsMembers (m :: t') ++ ('}' :: rest)))))))) := by
            rw [dumpsMembers]
            simp
          rw [hshape, dropWhile_ws_append hpre, dropWhile_ws_cons (by decide)]
          simp only [Char.reduceEq, reduceIte]
          rw [parseStr_escapeStr]
          simp only []
          rw [dropWhile_ws_cons (show isJsonWs ':' = false from by decide)]
          simp only [Char.reduceEq, reduceIte]
          have hV : parseVal f (' ' :: (dumps v ++
              (',' :: ' ' :: (dumpsMembers (m :: t') ++ ('}' :: rest))))) =
              some (v, ',' :: ' ' :: (dumpsMembers (m :: t') ++ ('}' :: rest))) := by
            rw [show (' ' :: (dumps v ++ (',' :: ' ' :: (dumpsMembers (m :: t') ++
              ('}' :: rest))))) = [' '] ++ (dumps v ++ (',' :: ' ' ::
              (dumpsMembers (m :: t') ++ ('}' :: rest)))) from rfl]
            rw [parseVal_ws_skip [' '] (by simp [isJsonWs])]
            exact ihV v (by rw [jsizeKV] at hsz; omega) f
              (by rw [jsizeKV] at hszf; omega) _ rfl
          rw [hV]
          simp only [dropWhile_ws_cons (show isJsonWs ',' = false from by decide),
            Char.reduceEq, reduceIte]
          have hO := ihO (m :: t') (by rw [jsizeKV] at hsz ⊢; omega) (by simp) f
            (by rw [jsizeKV] at hszf ⊢; omega) rest hrest [' '] (by simp [isJsonWs])
          rw [show ([' '] ++ (dumpsMembers (m :: t') ++ ('}' :: rest))) =
            ' ' :: (dumpsMembers (m :: t') ++ ('}' :: rest)) from rfl] at hO
          rw [hO]
          rfl

theorem jsize_le_bounded : ∀ N : Nat,
    (∀ v : JVal, jsize v ≤ N → jsize v ≤ (dumps v).length) ∧
    (∀ xs : List JVal, jsizeL xs ≤ N → jsizeL xs ≤ (dumpsElems xs).length + 1) ∧
    (∀ kvs : List (List Char × JVal), jsizeKV kvs ≤ N →
      jsizeKV kvs ≤ (dumpsMembers kvs).length + 1) := by
  intro N
  induction N with
  | zero =>
    refine ⟨?_, ?_, ?_⟩
    · intro v hv
      have := jsize_pos v
      omega
    · intro xs hxs
      cases xs with
      | nil => simp [jsizeL]
      | cons x t =>
        have : 1 ≤ jsizeL (x :: t) := jsizeL_pos (by simp)
        omega
    · intro kvs hkvs
      cases kvs with
      | nil => simp [jsizeKV]
      | cons kv t =>
        have : 1 ≤ jsizeKV (kv :: t) := jsizeKV_pos (by simp)
        omega
  | succ N ih =>
    obtain ⟨ihV, ihA, ihO⟩ := ih
    refine ⟨?_, ?_, ?_⟩
    · intro v hv
      cases v with
      | jnull => simp [jsize, dumps]
      | jbool b => cases b <;> simp [jsize, dumps]
      | jnum k =>
        have h1 : jsize (JVal.jnum k) = 1 := by rw [jsize]
        have h2 : dumps (JVal.jnum k) = intRepr k := by rw [dumps]
        have h3 : intRepr k ≠ [] := by
          rw [intRepr]
          split
          · simp
          · exact natDigits_ne_nil _
        rw [h1, h2]
        cases he : intRepr k with
        | nil => exact absurd he h3
        | cons a b => simp
      | jstr s =>
        have h1 : jsize (JVal.jstr s) = 1 := by rw [jsize]
        have h2 : dumps (JVal.jstr s) = '"' :: (escapeStr s ++ ['"']) := by rw [dumps]
        rw [h1, h2]
        simp
      | jarr xs =>
        have h1 : jsize (JVal.jarr xs) = jsizeL xs + 1 := by rw [jsize]
        have h2 : dumps (JVal.jarr xs) = '[' :: (dumpsElems xs ++ [']']) := by rw [dumps]
        have h3 := ihA xs (by omega)
        rw [h1, h2]
        simp only [List.length_cons, List.length_append, List.length_singleton]
        omega
      | jobj kvs =>
        have h1 : jsize (JVal.jobj kvs) = jsizeKV kvs + 1 := by rw [jsize]
        have h2 : dumps (JVal.jobj kvs) = '{' :: (dumpsMembers kvs ++ ['}']) := by
          rw [dumps]
        have h3 := ihO kvs (by omega)
        rw [h1, h2]
        simp only [List.length_cons, List.length_append, List.length_singleton]
        omega
    · intro xs hxs
      cases xs with
      | nil => simp [jsizeL]
      | cons x t =>
        have h1 : jsizeL (x :: t) = jsize x + jsizeL t + 1 := by rw [jsizeL]
        cases t with
        | nil =>
          have h2 : dumpsElems [x] = dumps x := by rw [dumpsElems]
          have h0 : jsizeL ([] : List JVal) = 0 := by rw [jsizeL]
          have h3 := ihV x (by omega)
          rw [h1, h2]
          omega
        | cons y t' =>
          have h2 : dumpsElems (x :: y :: t') =
              dumps x ++ (',' :: ' ' :: dumpsElems (y :: t')) := by rw [dumpsElems]
          have h3 := ihV x (by omega)
          have h4 := ihA (y :: t') (by omega)
          rw [h1, h2]
          simp only [List.length_append, List.length_cons]
          omega
    · intro kvs hkvs
      cases kvs with
      | nil => simp [jsizeKV]
      | cons kv t =>
        obtain ⟨k, v⟩ := kv
        have h1 : jsizeKV ((k, v) :: t) = jsize v + jsizeKV t + 1 := by rw [jsizeKV]
        cases t with
        | nil =>
          have h2 : dumpsMembers [(k, v)] =
              '"' :: (escapeStr k ++ ('"' :: ':' :: ' ' :: dumps v)) := by
            rw [dumpsMembers]
          have h0 : jsizeKV ([] : List (List Char × JVal)) = 0 := by rw [jsizeKV]
          have h3 := ihV v (by omega)
          rw [h1, h2]
          simp only [List.length_cons, List.length_append]
          omega
        | cons m t' =>
          have h2 : dumpsMembers ((k, v) :: m :: t') =
              ('"' :: (escapeStr k ++ ('"' :: ':' :: ' ' :: dumps v))) ++
                (',' :: ' ' :: dumpsMembers (m :: t')) := by rw [dumpsMembers]
          have h3 := ihV v (by omega)
          have h4 := ihO (m :: t') (by omega)
          rw [h1, h2]
          simp only [List.length_append, List.length_cons]
          omega

theorem jsize_le_dumps_length (v : JVal) : jsize v ≤ (dumps v).length :=
  (jsize_le_bounded (jsize v)).1 v le_rfl

/-- `json.loads` recovers any value from its `json.dumps` serialization. -/
theorem loads_dumps (v : JVal) : loads (dumps v) = some v := by
  have h := (roundTrip_bounded (jsize v)).1 v le_rfl ((dumps v).length + 1)
    (by have := jsize_le_dumps_length v; omega) [] rfl
  rw [List.append_nil] at h
  rw [loads, h]
  rfl

/-! ## The AI-output repair engine (`LangChainExtractor._parse_ai_response`) -/

def thinkOpen : List Char := ['<', 't', 'h', 'i', 'n', 'k', '>']

def thinkClose : List Char := ['<', '/', 't', 'h', 'i', 'n', 'k', '>']

/-- The `<think>…</think>` stripping step: if `"<think>"` occurs and
`"</think>"` is found, keep only the (stripped) text after the closing tag. -/
def dropThink (s : List Char) : List Char :=
  if containsSubstr s thinkOpen then
    match findSubstr s thinkClose with
    | some i => pstrip (s.drop (i + 8))
    | none => s
  else s

/-- The markdown code-fence stripping step: drop a leading ```` ```json ````
or ```` ``` ```` marker and a trailing ```` ``` ```` marker. -/
def dropFences (s : List Char) : List Char :=
  let s1 := if startsWith s ['`', '`', '`', 'j', 's', 'o', 'n'] then s.drop 7 else s
  let s2 := if startsWith s1 ['`', '`', '`'] then s1.drop 3 else s1
  if endsWith s2 ['`', '`', '`'] then s2.take (s2.length - 3) else s2

/-- The cleaned text `_parse_ai_response` works on: strip, remove a
reasoning block, remove code fences, strip again. -/
def cleanContent (content : List Char) : List Char :=
  pstrip (dropFences (dropThink (pstrip content)))

/-- Split a list at the first occurrence of `close`, which is consumed. -/
def splitAtChar (close : Char) : List Char → Option (List Char × List Char)
  | [] => none
  | c :: t =>
    if c = close then some ([], t)
    else (splitAtChar close t).map (fun p => (c :: p.1, p.2))

theorem splitAtChar_length {close : Char} :
    ∀ {t a r : List Char}, splitAtChar close t = some (a, r) → r.length < t.length := by
  intro t
  induction t with
  | nil => intro a r h; simp [splitAtChar] at h
  | cons c t ih =>
    intro a r h
    simp only [splitAtChar] at h
    split at h
    · rcases h with ⟨rfl, rfl⟩
      simp
    · rw [Option.map_eq_some'] at h
      obtain ⟨⟨p, q⟩, hp, hfr⟩ := h
      cases hfr
      have := ih hp
      simp only [List.length_cons]
      omega

/-- The non-overlapping matches of the lazy regex `\[.*?\]` (`re.DOTALL`)
used by `_parse_ai_response`: each match runs from an opening bracket to the
first closing bracket after it. -/
def findCandF (opn cls : Char) : Nat → List Char → List (List Char)
  | 0, _ => []
  | _ + 1, [] => []
  | fuel + 1, c :: t =>
    if c = opn then
      match splitAtChar cls t with
      | some (inside, rest) => (opn :: (inside ++ [cls])) :: findCandF opn cls fuel rest
      | none => []
    else findCandF opn cls fuel t

def findCand (opn cls : Char) (s : List Char) : List (List Char) :=
  findCandF opn cls (s.length + 1) s

theorem findCandF_extra {opn cls : Char} :
    ∀ f1 f2 s, s.length < f1 → s.length < f2 →
      findCandF opn cls f1 s = findCandF opn cls f2 s := by
  intro f1
  induction f1 with
  | zero => intro f2 s h1 _; omega
  | succ f1 ih =>
    intro f2 s h1 h2
    cases f2 with
    | zero => omega
    | succ f2 =>
      cases s with
      | nil => rfl
      | cons c t =>
        simp only [List.length_cons] at h1 h2
        rw [findCandF, findCandF]
        by_cases hc : c = opn
        · rw [if_pos hc, if_pos hc]
          cases hsp : splitAtChar cls t with
          | none => rfl
          | some p =>
            obtain ⟨inside, rest⟩ := p
            have hlen := splitAtChar_length hsp
            show (opn :: (inside ++ [cls])) :: findCandF opn cls f1 rest =
              (opn :: (inside ++ [cls])) :: findCandF opn cls f2 rest
            rw [ih f2 rest (by omega) (by omega)]
        · rw [if_neg hc, if_neg hc, ih f2 t (by omega) (by omega)]

/-- Take characters until bracket depth returns to zero (`d` is the open
depth so far, at least 1); the closing bracket is included.  This is NOT
translated from the repository: it renders the SPEC'S description of the
scan ("tracking nesting depth to find the first fully balanced span"), to
be compared against `findCand`, the scan the code actually performs. -/
def takeBalanced : Nat → List Char → Option (List Char × List Char)
  | _, [] => none
  | d, c :: t =>
    if c = ']' then
      if d = 1 then some ([c], t)
      else (takeBalanced (d - 1) t).map (fun p => (c :: p.1, p.2))
    else if c = '[' then (takeBalanced (d + 1) t).map (fun p => (c :: p.1, p.2))
    else (takeBalanced d t).map (fun p => (c :: p.1, p.2))

/-- The candidate list the SPEC describes (each candidate the first fully
balanced `[...]` span from each opening bracket); spec-rendered, not
code-translated — see `takeBalanced`. -/
def findBalCandF : Nat → List Char → List (List Char)
  | 0, _ => []
  | _ + 1, [] => []
  | fuel + 1, c :: t =>
    if c = '[' then
      match takeBalanced 1 t with
      | some (inside, rest) => ('[' :: inside) :: findBalCandF fuel rest
      | none => findBalCandF fuel t
    else findBalCandF fuel t

/-- Entry point of the spec-described balanced scan. -/
def findBalCand (s : List Char) : List (List Char) :=
  findBalCandF (s.length + 1) s

/-- Try `json.loads` on each candidate, returning the first success. -/
def firstParse : List (List Char) → Option JVal
  | [] => none
  | c :: t =>
    match loads c with
    | some v => some v
    | none => firstParse t

/-- The result of `_parse_ai_response`: the value the Python function
returns, plus the diagnostic snippet it prints when every parse fails
(`None` on the silent paths). -/
structure RepairResult where
  records : JVal
  diagnostic : Option (List Char)
  deriving Repr, DecidableEq

/-- `LangChainExtractor._parse_ai_response`: clean the raw model output,
try a direct parse, then bracketed array candidates in order, then brace
object candidates (wrapped into one array), and otherwise report failure
with the first 200 characters of the cleaned text. -/
def parse_ai_response (content : List Char) : RepairResult :=
  if pstrip content = [] then ⟨.jarr [], none⟩
  else
    let cleaned := cleanContent content
    match loads cleaned with
    | some v => ⟨v, none⟩
    | none =>
      match firstParse (findCand '[' ']' cleaned) with
      | some v => ⟨v, none⟩
      | none =>
        match (findCand '{' '}' cleaned).filterMap loads with
        | [] => ⟨.jarr [], some (cleaned.take 200)⟩
        | o :: objs => ⟨.jarr (o :: objs), none⟩

/-! ## Accuracy (`LangChainExtractor.extract_with_accuracy`) -/

/-- The accuracy computation of `extract_with_accuracy`: `1.0` when no
expected count is supplied, else `min(extracted/expected, 1.0)` for a
positive expectation and `0.0` otherwise. -/
def accuracy (extracted_count : Nat) (expected_count : Option Int) : ℚ :=
  match expected_count with
  | none => 1
  | some n => if 0 < n then min ((extracted_count : ℚ) / (n : ℚ)) 1 else 0

/-! ## Smart detection (`smart_detector.py`) -/

/-- `DocumentType` enum of `models/document.py`. -/
inductive DocumentType where
  | markdown | pdf | word | txt | openapi | swagger | api_markdown | prompt
  deriving Repr, DecidableEq

/-- `DetectionResult` of `smart_detector.py` (the `details` dictionary holds
only diagnostic metadata and is not modelled). -/
structure DetectionResult where
  document_type : DocumentType
  confidence : ℚ
  method : String
  deriving Repr, DecidableEq

/-- `SmartDocumentDetector._combine_results`. -/
def combine_results (rule_result ai_result : DetectionResult) : DetectionResult :=
  if rule_result.document_type = ai_result.document_type then
    { document_type := rule_result.document_type
      confidence := min ((rule_result.confidence + ai_result.confidence) / 2 + 1/5) 1
      method := "hybrid_consistent" }
  else if ai_result.confidence > rule_result.confidence then
    { document_type := ai_result.document_type
      confidence := ai_result.confidence * (9/10)
      method := "hybrid_ai_preferred" }
  else
    { document_type := rule_result.document_type
      confidence := rule_result.confidence * (9/10)
      method := "hybrid_rule_preferred" }

/-- `SmartDocumentDetector._create_uncertain_result`. -/
def create_uncertain_result (rule_result _ai_result : DetectionResult) : DetectionResult :=
  { document_type := rule_result.document_type
    confidence := 2/5
    method := "uncertain" }

/-- Python `str.lower()` (ASCII case folding; the detector's keywords are
ASCII or Chinese, which `lower` leaves unchanged). -/
def lowerStr (s : List Char) : List Char := s.map Char.toLower

/-- Number of keywords of `kws` occurring as substrings of `s`. -/
def countMatches (kws : List (List Char)) (s : List Char) : Nat :=
  (kws.filter (fun k => containsSubstr s k)).length

def openapiKeywords : List (List Char) :=
  ["openapi".data, "swagger".data, "paths".data, "components".data]

def apiPatterns : List (List Char) :=
  ["get /".data, "post /".data, "request".data, "response".data, "status code".data]

def reqPatterns : List (List Char) :=
  ["需求".data, "功能".data, "用户故事".data, "requirement".data, "feature".data]

/-- `SmartDocumentDetector._calculate_rule_confidence`: base `0.5`, plus a
file-extension bonus, plus a capped content-keyword bonus, capped at `1.0`. -/
def calculate_rule_confidence (content filename : List Char)
    (doc_type : DocumentType) : ℚ :=
  let c1 : ℚ :=
    if endsWith filename ".json".data ∧ doc_type = .openapi then 1/2 + 3/10
    else if endsWith filename ".md".data ∧
        (doc_type = .markdown ∨ doc_type = .api_markdown) then 1/2 + 1/5
    else 1/2
  let content_lower := lowerStr content
  let c2 : ℚ :=
    if doc_type = .openapi then
      c1 + min ((countMatches openapiKeywords content_lower : ℚ) * (1/10)) (3/10)
    else if doc_type = .api_markdown then
      c1 + min ((countMatches apiPatterns content_lower : ℚ) * (1/20)) (1/5)
    else if doc_type = .markdown then
      c1 + min ((countMatches reqPatterns content_lower : ℚ) * (1/20)) (1/5)
    else c1
  min c2 1

/-- `SmartDocumentDetector._rule_detection`, parameterized by the format
the rule detector (`DocumentFormatDetector.detect_format`) reported — the
confidence bound below holds for every possible report, so the YAML/regex
machinery of `format_detector.py` does not need to be embedded. -/
def rule_detection (content filename : List Char)
    (doc_type : DocumentType) : DetectionResult :=
  { document_type := doc_type
    confidence := calculate_rule_confidence content filename doc_type
    method := "rule" }

/-- `SmartDocumentDetector.detect_document_type` (the content-hash memo
cache only replays a previously computed result and is not modelled), with
the rule detector's format report and the AI detection result (an external
collaborator in `_ai_detection`) as parameters. -/
def detect_document_type (content filename : List Char)
    (doc_type : DocumentType) (ai_result : DetectionResult) : DetectionResult :=
  let rule_result := rule_detection content filename doc_type
  if rule_result.confidence ≥ 4/5 then rule_result
  else if rule_result.confidence ≥ 1/2 then combine_results rule_result ai_result
  else if ai_result.confidence > rule_result.confidence then ai_result
  else create_uncertain_result rule_result ai_result

/-! ## The `Document` model (`models/document.py`) -/

/-- `Document` (the claim-relevant fields). -/
structure Document where
  title : List Char
  content : List Char
  document_type : DocumentType
  deriving Repr, DecidableEq

/-- Constructing a `Document` through its pydantic validators:
`validate_title` rejects an empty or whitespace-only title and stores the
stripped title; `validate_content` rejects empty or whitespace-only content
and stores it unchanged. -/
def mkDocument (title content : List Char) (document_type : DocumentType) :
    Except String Document :=
  if pstrip title = [] then .error "文档标题不能为空"
  else if pstrip content = [] then .error "文档内容不能为空"
  else .ok ⟨pstrip title, content, document_type⟩

/-! ## Markdown section extraction (`MarkdownParser._extract_sections`) -/

/-- One entry of the `sections` list. -/
structure MdSection where
  level : Nat
  title : List Char
  content : List Char
  deriving Repr, DecidableEq

/-- Count of leading `#` characters (`len(line) - len(line.lstrip('#'))`). -/
def hashCount (line : List Char) : Nat :=
  line.length - (line.dropWhile (· = '#')).length

/-- `'\n'.join(lines)`. -/
def joinLines : List (List Char) → List Char
  | [] => []
  | [l] => l
  | l :: m :: t => l ++ ('\n' :: joinLines (m :: t))

/-- The section-accumulating loop of `_extract_sections`; the accumulator is
the open section (level, title, collected lines). -/
def sectionsLoop : List (List Char) → Option (Nat × List Char × List (List Char)) →
    List (Nat × List Char × List (List Char))
  | [], none => []
  | [], some cur => [cur]
  | l :: rest, cur =>
    let line := pstrip l
    if startsWith line ['#'] then
      (match cur with | none => [] | some c => [c]) ++
        sectionsLoop rest
          (some (hashCount line, pstrip (line.dropWhile (· = '#')), []))
    else
      match cur with
      | none => sectionsLoop rest none
      | some (lv, ti, cs) => sectionsLoop rest (some (lv, ti, cs ++ [line]))

/-- `MarkdownParser._extract_sections`. -/
def extract_sections (content : List Char) : List MdSection :=
  (sectionsLoop (splitOn '\n' content) none).map
    (fun s => ⟨s.1, s.2.1, pstrip (joinLines s.2.2)⟩)

/-! ## Batch extraction (`LangChainExtractor.extract_batch`) -/

/-- Python `dict` assignment `d[k] = v`: replace in place, else append. -/
def dictSet {α : Type} : List (List Char × α) → List Char → α → List (List Char × α)
  | [], k, v => [(k, v)]
  | (k', v') :: t, k, v =>
    if k' = k then (k', v) :: t else (k', v') :: dictSet t k v

/-- Python `dict` lookup. -/
def dictGet {α : Type} : List (List Char × α) → List Char → Option α
  | [], _ => none
  | (k', v') :: t, k => if k' = k then some v' else dictGet t k

/-- `LangChainExtractor.extract_batch`, parameterized by the per-document
extraction `extract` (the `extract_async` model call): results are keyed by
document title; a document whose extraction raises contributes an empty
list instead of aborting the batch. -/
def extract_batch {ρ : Type} (extract : Document → Except String (List ρ))
    (documents : List Document) : List (List Char × List ρ) :=
  documents.foldl
    (fun results doc =>
      dictSet results doc.title
        (match extract doc with
         | .ok reqs => reqs
         | .error _ => []))
    []

/-! ## String lemmas for the repair pipeline -/

theorem startsWith_append_self : ∀ (p s : List Char), startsWith (p ++ s) p = true := by
  intro p
  induction p with
  | nil => intro s; rw [startsWith]
  | cons c t ih =>
    intro s
    rw [List.cons_append, startsWith]
    simp [ih]

theorem startsWith_cons_ne {c p : Char} (h : ¬c = p) (t pt : List Char) :
    startsWith (c :: t) (p :: pt) = false := by
  rw [startsWith]
  simp [h]

theorem endsWith_append (y suf : List Char) : endsWith (y ++ suf) suf = true := by
  rw [endsWith, List.reverse_append, startsWith_append_self]

theorem endsWith_snoc_ne {d e : Char} (h : ¬d = e) (s pe : List Char) :
    endsWith (s ++ [d]) (pe ++ [e]) = false := by
  rw [endsWith, List.reverse_append, List.reverse_append]
  simp only [List.reverse_singleton, List.singleton_append]
  exact startsWith_cons_ne h _ _

theorem stripLeft_cons_nonws {c : Char} (h : isPyWs c = false) (t : List Char) :
    stripLeft (c :: t) = c :: t := by
  rw [stripLeft, List.dropWhile_cons, h]
  rfl

theorem stripLeft_cons_ws {c : Char} (h : isPyWs c = true) (t : List Char) :
    stripLeft (c :: t) = stripLeft t := by
  rw [stripLeft, List.dropWhile_cons, h]
  rfl

theorem stripRight_snoc_nonws {d : Char} (h : isPyWs d = false) (s : List Char) :
    stripRight (s ++ [d]) = s ++ [d] := by
  rw [stripRight, List.reverse_append]
  simp only [List.reverse_singleton, List.singleton_append, List.dropWhile_cons, h]
  simp

theorem stripRight_snoc_ws {d : Char} (h : isPyWs d = true) (s : List Char) :
    stripRight (s ++ [d]) = stripRight s := by
  rw [stripRight, stripRight, List.reverse_append]
  simp only [List.reverse_singleton, List.singleton_append, List.dropWhile_cons, h,
    reduceIte]

theorem pstrip_of_ends {s : List Char} {c d : Char} {a b : List Char}
    (h1 : s = c :: a) (h2 : s = b ++ [d]) (hc : isPyWs c = false)
    (hd : isPyWs d = false) : pstrip s = s := by
  rw [pstrip, h1, stripLeft_cons_nonws hc, ← h1, h2, stripRight_snoc_nonws hd]

theorem findSubstr_of_not_contains {s pat : List Char}
    (h : containsSubstr s pat = false) : findSubstr s pat = none := by
  rw [containsSubstr] at h
  cases hf : findSubstr s pat with
  | none => rfl
  | some i => rw [hf] at h; simp at h

theorem dropThink_no_pair {s : List Char}
    (h : ¬(containsSubstr s thinkOpen = true ∧ containsSubstr s thinkClose = true)) :
    dropThink s = s := by
  rw [dropThink]
  by_cases h1 : containsSubstr s thinkOpen = true
  · have h2 : containsSubstr s thinkClose = false := by
      by_cases h2 : containsSubstr s thinkClose = true
      · exact absurd ⟨h1, h2⟩ h
      · simpa using h2
    rw [if_pos h1, findSubstr_of_not_contains h2]
  · rw [if_neg h1]

theorem digit_ne {c : Char} (h : isDigitCh c = true) {x : Char}
    (hx : isDigitCh x = false) : ¬c = x := by
  intro e
  subst e
  rw [h] at hx
  cases hx

theorem digit_not_pyws {c : Char} (h : isDigitCh c = true) : isPyWs c = false := by
  by_cases hw : isPyWs c = true
  · rw [isPyWs] at hw
    simp only [Bool.or_eq_true, decide_eq_true_eq] at hw
    rcases hw with ((((rfl | rfl) | rfl) | rfl) | rfl) | rfl <;> exact absurd h (by decide)
  · simpa using hw

theorem natDigits_last (n : Nat) :
    ∃ ds d, natDigits n = ds ++ [d] ∧ isDigitCh d = true := by
  by_cases h : n < 10
  · exact ⟨[], hexDigit n, by rw [natDigits_eq_small h]; rfl, isDigitCh_hexDigit h⟩
  · exact ⟨natDigits (n / 10), hexDigit (n % 10), natDigits_eq_big h,
      isDigitCh_hexDigit (by omega)⟩

theorem intRepr_last (n : Int) :
    ∃ ds d, intRepr n = ds ++ [d] ∧ isDigitCh d = true := by
  rw [intRepr]
  obtain ⟨ds, d, hnd, hd⟩ := natDigits_last n.natAbs
  by_cases h : n < 0
  · exact ⟨'-' :: ds, d, by rw [if_pos h, hnd]; rfl, hd⟩
  · exact ⟨ds, d, by rw [if_neg h, hnd], hd⟩

/-- The first character of a serialized value is not Python whitespace and
not a backtick. -/
theorem dumps_head_py (v : JVal) :
    ∃ c cs, dumps v = c :: cs ∧ isPyWs c = false ∧ ¬c = '`' := by
  cases v with
  | jnull => exact ⟨'n', _, rfl, by decide, by decide⟩
  | jbool b => cases b with
    | true => exact ⟨'t', _, rfl, by decide, by decide⟩
    | false => exact ⟨'f', _, rfl, by decide, by decide⟩
  | jnum k =>
    show ∃ c cs, intRepr k = c :: cs ∧ _
    rw [intRepr]
    by_cases h : k < 0
    · rw [if_pos h]
      exact ⟨'-', _, rfl, by decide, by decide⟩
    · rw [if_neg h]
      obtain ⟨c0, t0, hnd⟩ : ∃ c0 t0, natDigits k.natAbs = c0 :: t0 := by
        cases hnd : natDigits k.natAbs with
        | nil => exact absurd hnd (natDigits_ne_nil _)
        | cons a b => exact ⟨a, b, rfl⟩
      have hd : isDigitCh c0 = true :=
        natDigits_all_digits k.natAbs c0 (by rw [hnd]; simp)
      exact ⟨c0, t0, hnd, digit_not_pyws hd, digit_ne hd (by decide)⟩
  | jstr s => exact ⟨'"', _, rfl, by decide, by decide⟩
  | jarr xs => exact ⟨'[', _, rfl, by decide, by decide⟩
  | jobj kvs => exact ⟨'{', _, rfl, by decide, by decide⟩

/-- The last character of a serialized value is not Python whitespace and
not a backtick. -/
theorem dumps_last_py (v : JVal) :
    ∃ ds d, dumps v = ds ++ [d] ∧ isPyWs d = false ∧ ¬d = '`' := by
  cases v with
  | jnull => exact ⟨['n', 'u', 'l'], 'l', rfl, by decide, by decide⟩
  | jbool b => cases b with
    | true => exact ⟨['t', 'r', 'u'], 'e', rfl, by decide, by decide⟩
    | false => exact ⟨['f', 'a', 'l', 's'], 'e', rfl, by decide, by decide⟩
  | jnum k =>
    obtain ⟨ds, d, hr, hd⟩ := intRepr_last k
    exact ⟨ds, d, hr, digit_not_pyws hd, digit_ne hd (by decide)⟩
  | jstr s =>
    exact ⟨'"' :: escapeStr s, '"', by rw [dumps]; rfl, by decide, by decide⟩
  | jarr xs =>
    exact ⟨'[' :: dumpsElems xs, ']', by rw [dumps]; rfl, by decide, by decide⟩
  | jobj kvs =>
    exact ⟨'{' :: dumpsMembers kvs, '}', by rw [dumps]; rfl, by decide, by decide⟩

/-- Cleaning a `json.dumps` serialization is a no-op, provided the text does
not contain both `<think>` and `</think>`. -/
theorem cleanContent_dumps {v : JVal}
    (h : ¬(containsSubstr (dumps v) thinkOpen = true ∧
           containsSubstr (dumps v) thinkClose = true)) :
    cleanContent (dumps v) = dumps v := by
  obtain ⟨c, cs, hcons, hcws, hcbt⟩ := dumps_head_py v
  obtain ⟨ds, d, hsnoc, hdws, hdbt⟩ := dumps_last_py v
  have hstrip : pstrip (dumps v) = dumps v := pstrip_of_ends hcons hsnoc hcws hdws
  have h1 : startsWith (dumps v) "```json".data = false := by
    rw [hcons]
    exact startsWith_cons_ne hcbt _ _
  have h2 : startsWith (dumps v) "```".data = false := by
    rw [hcons]
    exact startsWith_cons_ne hcbt _ _
  have h3 : endsWith (dumps v) "```".data = false := by
    rw [hsnoc, show "```".data = ['`', '`'] ++ ['`'] from rfl]
    exact endsWith_snoc_ne hdbt _ _
  rw [cleanContent, hstrip, dropThink_no_pair h, dropFences]
  simp only [h1, h2, h3, if_false, Bool.false_eq_true]
  exact hstrip

/-- Repairing a `json.dumps` serialization recovers the value directly,
provided the text does not contain both `<think>` and `</think>`. -/
theorem parse_ai_response_dumps {v : JVal}
    (h : ¬(containsSubstr (dumps v) thinkOpen = true ∧
           containsSubstr (dumps v) thinkClose = true)) :
    parse_ai_response (dumps v) = ⟨v, none⟩ := by
  obtain ⟨c, cs, hcons, hcws, -⟩ := dumps_head_py v
  obtain ⟨ds, d, hsnoc, hdws, -⟩ := dumps_last_py v
  have hstrip : pstrip (dumps v) = dumps v := pstrip_of_ends hcons hsnoc hcws hdws
  have hne : pstrip (dumps v) ≠ [] := by
    rw [hstrip, hcons]
    simp
  rw [parse_ai_response, if_neg hne, cleanContent_dumps h]
  simp only [loads_dumps]

theorem findCand_cons_ne {opn cls c : Char} (hc : ¬c = opn) (t : List Char) :
    findCand opn cls (c :: t) = findCand opn cls t := by
  rw [findCand, findCand, findCandF, if_neg hc]
  rfl

theorem findCand_open {opn cls : Char} {t inside rest' : List Char}
    (h : splitAtChar cls t = some (inside, rest')) :
    findCand opn cls (opn :: t) =
      (opn :: (inside ++ [cls])) :: findCand opn cls rest' := by
  rw [findCand, findCand, findCandF, if_pos rfl, h]
  show (opn :: (inside ++ [cls])) :: findCandF opn cls ((opn :: t).length) rest' =
    (opn :: (inside ++ [cls])) :: findCandF opn cls (rest'.length + 1) rest'
  rw [findCandF_extra ((opn :: t).length) (rest'.length + 1) rest'
    (by have := splitAtChar_length h; simp only [List.length_cons]; omega) (by omega)]

theorem findCand_skip {opn cls : Char} :
    ∀ {p : List Char}, (∀ c ∈ p, ¬c = opn) → ∀ (s : List Char),
      findCand opn cls (p ++ s) = findCand opn cls s := by
  intro p
  induction p with
  | nil => intro _ s; rfl
  | cons c t ih =>
    intro hp s
    rw [List.cons_append, findCand_cons_ne (hp c (by simp))]
    exact ih (fun x hx => hp x (by simp [hx])) s

theorem findCand_no_open {opn cls : Char} :
    ∀ {q : List Char}, (∀ c ∈ q, ¬c = opn) → findCand opn cls q = [] := by
  intro q
  induction q with
  | nil => intro _; rfl
  | cons c t ih =>
    intro hq
    rw [findCand_cons_ne (hq c (by simp))]
    exact ih (fun x hx => hq x (by simp [hx]))

theorem splitAtChar_first {cls : Char} :
    ∀ {mid : List Char}, (∀ c ∈ mid, ¬c = cls) → ∀ (q : List Char),
      splitAtChar cls (mid ++ (cls :: q)) = some (mid, q) := by
  intro mid
  induction mid with
  | nil => intro _ q; rw [List.nil_append, splitAtChar, if_pos rfl]
  | cons c t ih =>
    intro hm q
    rw [List.cons_append, splitAtChar, if_neg (hm c (by simp)),
      ih (fun x hx => hm x (by simp [hx])) q]
    rfl

theorem firstParse_none : ∀ {l : List (List Char)},
    (∀ c ∈ l, loads c = none) → firstParse l = none := by
  intro l
  induction l with
  | nil => intro _; rfl
  | cons c t ih =>
    intro h
    rw [firstParse, h c (by simp)]
    exact ih (fun x hx => h x (by simp [hx]))

theorem cleanContent_nil {content : List Char} (h : pstrip content = []) :
    cleanContent content = [] := by
  rw [cleanContent, h]
  rfl

/-- The failure path of `_parse_ai_response`: non-blank input on which the
direct parse and every array and object candidate fail yields the empty
record list plus the 200-character diagnostic snippet of the cleaned text. -/
theorem repair_failure_path (content : List Char) (h0 : pstrip content ≠ [])
    (h1 : loads (cleanContent content) = none)
    (h2 : ∀ cand ∈ findCand '[' ']' (cleanContent content), loads cand = none)
    (h3 : ∀ cand ∈ findCand '{' '}' (cleanContent content), loads cand = none) :
    parse_ai_response content =
      ⟨.jarr [], some ((cleanContent content).take 200)⟩ := by
  rw [parse_ai_response, if_neg h0]
  simp only [h1, firstParse_none h2, List.filterMap_eq_nil_iff.mpr h3]

/-- The candidate-recovery path on a flat array: when the cleaned text is a
serialized bracket-free array surrounded by bracket-free text and the direct
parse fails, the scan recovers exactly that array. -/
theorem repair_flat_array {content p q : List Char} {vs : List JVal}
    (hclean : cleanContent content = p ++ (dumps (.jarr vs) ++ q))
    (hp : ∀ c ∈ p, ¬c = '[') (hq : ∀ c ∈ q, ¬c = '[')
    (hmid : ∀ c ∈ dumpsElems vs, ¬c = ']')
    (hdirect : loads (cleanContent content) = none) :
    parse_ai_response content = ⟨.jarr vs, none⟩ := by
  have hD : dumps (.jarr vs) = '[' :: (dumpsElems vs ++ [']']) := by rw [dumps]
  have h0 : pstrip content ≠ [] := by
    intro hnil
    rw [cleanContent_nil hnil, hD] at hclean
    simp at hclean
  have hcand : findCand '[' ']' (cleanContent content) = [dumps (.jarr vs)] := by
    rw [hclean, findCand_skip hp, hD,
      show ('[' :: (dumpsElems vs ++ [']'])) ++ q =
        '[' :: (dumpsElems vs ++ (']' :: q)) from by simp,
      findCand_open (splitAtChar_first hmid q), findCand_no_open hq]
  rw [parse_ai_response, if_neg h0]
  simp only [hdirect, hcand, firstParse, loads_dumps]

theorem dropFences_fenced_json (D : List Char) :
    dropFences ("```json\n".data ++ (D ++ "\n```".data)) = '\n' :: (D ++ ['\n']) := by
  have hsplit7 : "```json\n".data ++ (D ++ "\n```".data) =
      "```json".data ++ ('\n' :: (D ++ "\n```".data)) := rfl
  have hshape3 : '\n' :: (D ++ "\n```".data) =
      ('\n' :: (D ++ ['\n'])) ++ "```".data := by
    rw [show ("\n```".data : List Char) = ['\n'] ++ "```".data from rfl]
    simp
  rw [dropFences, hsplit7, if_pos (startsWith_append_self _ _)]
  rw [show (7 : Nat) = ("```json".data : List Char).length from rfl, List.drop_left]
  rw [show startsWith ('\n' :: (D ++ "\n```".data)) "```".data = false from
    startsWith_cons_ne (by decide) _ _]
  simp only [Bool.false_eq_true, if_false]
  rw [hshape3, if_pos (endsWith_append _ _)]
  have hlen : (('\n' :: (D ++ ['\n'])) ++ "```".data).length - 3 =
      ('\n' :: (D ++ ['\n'])).length := by
    rw [List.length_append, show ("```".data : List Char).length = 3 from rfl]
    omega
  rw [hlen, List.take_left]

theorem dropFences_fenced_plain (D : List Char) :
    dropFences ("```\n".data ++ (D ++ "\n```".data)) = '\n' :: (D ++ ['\n']) := by
  have hsplit3 : "```\n".data ++ (D ++ "\n```".data) =
      "```".data ++ ('\n' :: (D ++ "\n```".data)) := rfl
  have hshape3 : '\n' :: (D ++ "\n```".data) =
      ('\n' :: (D ++ ['\n'])) ++ "```".data := by
    rw [show ("\n```".data : List Char) = ['\n'] ++ "```".data from rfl]
    simp
  have hnojson : startsWith ("```\n".data ++ (D ++ "\n```".data)) "```json".data = false := by
    rw [show ("```\n".data : List Char) ++ (D ++ "\n```".data) =
      '`' :: ('`' :: ('`' :: ('\n' :: (D ++ "\n```".data)))) from rfl]
    rw [show ("```json".data : List Char) = '`' :: ('`' :: ('`' :: ('j' :: "son".data)))
      from rfl]
    rw [startsWith, startsWith, startsWith, startsWith]
    simp [startsWith_cons_ne]
  rw [dropFences, hnojson]
  simp only [Bool.false_eq_true, if_false]
  rw [hsplit3, if_pos (startsWith_append_self _ _)]
  rw [show (3 : Nat) = ("```".data : List Char).length from rfl, List.drop_left]
  rw [hshape3, if_pos (endsWith_append _ _)]
  have hlen : (('\n' :: (D ++ ['\n'])) ++ "```".data).length -
      ("```".data : List Char).length = ('\n' :: (D ++ ['\n'])).length := by
    rw [List.length_append]
    omega
  rw [hlen, List.take_left]

theorem pstrip_fenced_payload {D : List Char} {c d : Char} {a b : List Char}
    (h1 : D = c :: a) (h2 : D = b ++ [d]) (hc : isPyWs c = false)
    (hd : isPyWs d = false) : pstrip ('\n' :: (D ++ ['\n'])) = D := by
  rw [pstrip, stripLeft_cons_ws (by decide), h1, List.cons_append,
    stripLeft_cons_nonws hc, ← List.cons_append, ← h1,
    stripRight_snoc_ws (by decide), h2, stripRight_snoc_nonws hd, ← h2]

/-- Repairing a serialized array wrapped in a ```` ```json ```` fence
recovers exactly the array, provided no `<think>`/`</think>` pair occurs. -/
theorem repair_fenced_json {vs : List JVal}
    (h : ¬(containsSubstr ("```json\n".data ++ (dumps (.jarr vs) ++ "\n```".data))
             thinkOpen = true ∧
           containsSubstr ("```json\n".data ++ (dumps (.jarr vs) ++ "\n```".data))
             thinkClose = true)) :
    parse_ai_response ("```json\n".data ++ (dumps (.jarr vs) ++ "\n```".data)) =
      ⟨.jarr vs, none⟩ := by
  have hcons : "```json\n".data ++ (dumps (.jarr vs) ++ "\n```".data) =
      '`' :: ("``json\n".data ++ (dumps (.jarr vs) ++ "\n```".data)) := rfl
  have hsnoc : "```json\n".data ++ (dumps (.jarr vs) ++ "\n```".data) =
      ("```json\n".data ++ (dumps (.jarr vs) ++ "\n``".data)) ++ ['`'] := by
    rw [show ("\n```".data : List Char) = "\n``".data ++ ['`'] from rfl]
    simp
  have hstrip := pstrip_of_ends hcons hsnoc (by decide) (by decide)
  have hne : pstrip ("```json\n".data ++ (dumps (.jarr vs) ++ "\n```".data)) ≠ [] := by
    rw [hstrip, hcons]
    simp
  have hclean : cleanContent ("```json\n".data ++ (dumps (.jarr vs) ++ "\n```".data)) =
      dumps (.jarr vs) := by
    rw [cleanContent, hstrip, dropThink_no_pair h, dropFences_fenced_json]
    obtain ⟨c, a, h1, hc, -⟩ := dumps_head_py (.jarr vs)
    obtain ⟨b, d, h2, hd, -⟩ := dumps_last_py (.jarr vs)
    exact pstrip_fenced_payload h1 h2 hc hd
  rw [parse_ai_response, if_neg hne, hclean]
  simp only [loads_dumps]

/-- Repairing a serialized array wrapped in a plain ```` ``` ```` fence
recovers exactly the array, provided no `<think>`/`</think>` pair occurs. -/
theorem repair_fenced_plain {vs : List JVal}
    (h : ¬(containsSubstr ("```\n".data ++ (dumps (.jarr vs) ++ "\n```".data))
             thinkOpen = true ∧
           containsSubstr ("```\n".data ++ (dumps (.jarr vs) ++ "\n```".data))
             thinkClose = true)) :
    parse_ai_response ("```\n".data ++ (dumps (.jarr vs) ++ "\n```".data)) =
      ⟨.jarr vs, none⟩ := by
  have hcons : "```\n".data ++ (dumps (.jarr vs) ++ "\n```".data) =
      '`' :: ("``\n".data ++ (dumps (.jarr vs) ++ "\n```".data)) := rfl
  have hsnoc : "```\n".data ++ (dumps (.jarr vs) ++ "\n```".data) =
      ("```\n".data ++ (dumps (.jarr vs) ++ "\n``".data)) ++ ['`'] := by
    rw [show ("\n```".data : List Char) = "\n``".data ++ ['`'] from rfl]
    simp
  have hstrip := pstrip_of_ends hcons hsnoc (by decide) (by decide)
  have hne : pstrip ("```\n".data ++ (dumps (.jarr vs) ++ "\n```".data)) ≠ [] := by
    rw [hstrip, hcons]
    simp
  have hclean : cleanContent ("```\n".data ++ (dumps (.jarr vs) ++ "\n```".data)) =
      dumps (.jarr vs) := by
    rw [cleanContent, hstrip, dropThink_no_pair h, dropFences_fenced_plain]
    obtain ⟨c, a, h1, hc, -⟩ := dumps_head_py (.jarr vs)
    obtain ⟨b, d, h2, hd, -⟩ := dumps_last_py (.jarr vs)
    exact pstrip_fenced_payload h1 h2 hc hd
  rw [parse_ai_response, if_neg hne, hclean]
  simp only [loads_dumps]

/-! ## Lemmas for markdown sections, batch extraction and rule confidence -/

theorem hashCount_two {l : List Char}
    (h2 : startsWith l ['#', '#'] = true)
    (h3 : startsWith l ['#', '#', '#'] = false) : hashCount l = 2 := by
  cases l with
  | nil => exact absurd h2 (by decide)
  | cons a t =>
    cases t with
    | nil =>
      rw [startsWith] at h2
      simp only [startsWith, Bool.and_false] at h2
      exact Bool.noConfusion h2
    | cons b t' =>
      rw [startsWith, startsWith] at h2 h3
      simp only [startsWith, Bool.and_true, Bool.and_eq_true, decide_eq_true_eq] at h2
      obtain ⟨ha, hb⟩ := h2
      subst ha
      subst hb
      simp at h3
      rw [hashCount]
      cases t' with
      | nil => rfl
      | cons c t'' =>
        have hc : ¬c = '#' := by
          intro e
          subst e
          rw [startsWith] at h3
          simp [startsWith] at h3
        have hdw : (('#' :: '#' :: c :: t'').dropWhile (· = '#')) = c :: t'' := by
          rw [List.dropWhile_cons_of_pos (by decide),
            List.dropWhile_cons_of_pos (by decide),
            List.dropWhile_cons_of_neg (by simp [hc])]
        rw [hdw]
        simp only [List.length_cons]
        omega

theorem sectionsLoop_pairs :
    ∀ (ls : List (List Char)) (cur : Option (Nat × List Char × List (List Char))),
      (sectionsLoop ls cur).map (fun s => (s.1, s.2.1)) =
        (match cur with | none => [] | some c => [(c.1, c.2.1)]) ++
          (ls.filter (fun l => startsWith (pstrip l) ['#'])).map
            (fun l => (hashCount (pstrip l), pstrip ((pstrip l).dropWhile (· = '#')))) := by
  intro ls
  induction ls with
  | nil =>
    intro cur
    cases cur with
    | none => rfl
    | some c => rfl
  | cons l rest ih =>
    intro cur
    cases hl : startsWith (pstrip l) ['#'] with
    | true =>
      cases cur with
      | none =>
        simp only [sectionsLoop, hl, reduceIte, List.nil_append, List.map_append, ih,
          List.filter_cons, List.map_cons, List.map_nil, List.singleton_append]
      | some c =>
        simp only [sectionsLoop, hl, reduceIte, List.map_append, ih,
          List.filter_cons, List.map_cons, List.map_nil, List.singleton_append,
          List.cons_append, List.nil_append]
    | false =>
      cases cur with
      | none =>
        simp only [sectionsLoop, hl, Bool.false_eq_true, reduceIte, ih,
          List.filter_cons, List.nil_append]
      | some c =>
        obtain ⟨lv, ti, cs⟩ := c
        simp only [sectionsLoop, hl, Bool.false_eq_true, reduceIte, ih,
          List.filter_cons, List.nil_append]

theorem dictSet_not_mem {α : Type} :
    ∀ (m : List (List Char × α)) (k : List Char) (v : α),
      (∀ p ∈ m, ¬p.1 = k) → dictSet m k v = m ++ [(k, v)] := by
  intro m
  induction m with
  | nil => intro k v _; rfl
  | cons p t ih =>
    intro k v h
    obtain ⟨k', v'⟩ := p
    rw [dictSet, if_neg (h (k', v') (by simp)), ih k v (fun q hq => h q (by simp [hq]))]
    rfl

theorem batch_fold_nodup {ρ : Type} (g : Document → List ρ) :
    ∀ (docs : List Document) (acc : List (List Char × List ρ)),
      (docs.map Document.title).Nodup →
      (∀ p ∈ acc, ∀ d ∈ docs, ¬p.1 = d.title) →
      docs.foldl (fun results doc => dictSet results doc.title (g doc)) acc =
        acc ++ docs.map (fun d => (d.title, g d)) := by
  intro docs
  induction docs with
  | nil => intro acc _ _; simp
  | cons d rest ih =>
    intro acc hnd hacc
    rw [List.map_cons, List.nodup_cons] at hnd
    obtain ⟨hdnotin, hnd'⟩ := hnd
    rw [List.foldl_cons,
      dictSet_not_mem acc d.title (g d) (fun p hp => hacc p hp d (by simp))]
    rw [ih (acc ++ [(d.title, g d)]) hnd' ?_]
    · simp
    · intro p hp d' hd'
      rcases List.mem_append.mp hp with h | h
      · exact hacc p h d' (by simp [hd'])
      · simp only [List.mem_singleton] at h
        subst h
        intro e
        have e' : d.title = d'.title := e
        exact hdnotin (by rw [e']; exact List.mem_map_of_mem Document.title hd')

theorem crc_bounds (content filename : List Char) (dt : DocumentType) :
    1/2 ≤ calculate_rule_confidence content filename dt ∧
      calculate_rule_confidence content filename dt ≤ 1 := by
  simp only [calculate_rule_confidence]
  refine ⟨le_min ?_ (by norm_num), min_le_right _ _⟩
  have hm1 : (0 : ℚ) ≤
      min ((countMatches openapiKeywords (lowerStr content) : ℚ) * (1/10)) (3/10) :=
    le_min (mul_nonneg (Nat.cast_nonneg _) (by norm_num)) (by norm_num)
  have hm2 : (0 : ℚ) ≤
      min ((countMatches apiPatterns (lowerStr content) : ℚ) * (1/20)) (1/5) :=
    le_min (mul_nonneg (Nat.cast_nonneg _) (by norm_num)) (by norm_num)
  have hm3 : (0 : ℚ) ≤
      min ((countMatches reqPatterns (lowerStr content) : ℚ) * (1/20)) (1/5) :=
    le_min (mul_nonneg (Nat.cast_nonneg _) (by norm_num)) (by norm_num)
  split_ifs <;> linarith

/-! ## The claims -/

/-- C1: the repair operation (`_parse_ai_response`) returns normally on
every input string — the model is a total function, and under the stated
all-parses-fail conditions the result is fully characterized: the empty or
whitespace-only input yields the empty record list silently, and every
other input yields the empty record list together with the diagnostic
snippet holding the first 200 characters of the cleaned text, so the
failure is reified rather than silently lost. -/
theorem repair_totality_and_snippet (content : List Char)
    (h1 : loads (cleanContent content) = none)
    (h2 : ∀ cand ∈ findCand '[' ']' (cleanContent content), loads cand = none)
    (h3 : ∀ cand ∈ findCand '{' '}' (cleanContent content), loads cand = none) :
    (pstrip content = [] → parse_ai_response content = ⟨.jarr [], none⟩) ∧
    (¬pstrip content = [] →
      parse_ai_response content =
        ⟨.jarr [], some ((cleanContent content).take 200)⟩) := by
  constructor
  · intro h0
    rw [parse_ai_response, if_pos h0]
  · intro h0
    exact repair_failure_path content h0 h1 h2 h3

theorem repair_totality_and_snippet_witness :
    parse_ai_response "hello".data =
      ⟨.jarr [], some ((cleanContent "hello".data).take 200)⟩ :=
  (repair_totality_and_snippet "hello".data (by decide) (by decide) (by decide)).2
    (by decide)

/-- C2 (counterexample): on `"noise [[1, 2], [3]] tail"` the code's scan is
the lazy regex one, not the depth-tracking one the spec describes: the code
returns the parse of `"[3]"`, while the spec-described balanced scan
(`findBalCand`) recovers the full nested span `"[[1, 2], [3]]"`, whose
parse is a different value. -/
theorem repair_lazy_scan_counterexample :
    parse_ai_response "noise [[1, 2], [3]] tail".data = ⟨.jarr [.jnum 3], none⟩ ∧
    loads "[[1, 2], [3]]".data =
      some (.jarr [.jarr [.jnum 1, .jnum 2], .jarr [.jnum 3]]) ∧
    firstParse (findBalCand (cleanContent "noise [[1, 2], [3]] tail".data)) =
      some (.jarr [.jarr [.jnum 1, .jnum 2], .jarr [.jnum 3]]) ∧
    ¬(JVal.jarr [.jnum 3] = .jarr [.jarr [.jnum 1, .jnum 2], .jarr [.jnum 3]]) := by
  decide

/-- C2 (amended): when the direct parse of the cleaned text fails, the scan
is the lazy regex `\[.*?\]`: each candidate runs from an opening bracket to
the FIRST closing bracket after it, with no depth tracking, and the
candidates are parsed in order of appearance, the first success being
returned. -/
theorem repair_candidate_scan_lazy {content p mid q : List Char}
    (hne : ¬pstrip content = [])
    (hclean : cleanContent content = p ++ ('[' :: (mid ++ (']' :: q))))
    (hp : ∀ c ∈ p, ¬c = '[') (hmid : ∀ c ∈ mid, ¬c = ']')
    (hdirect : loads (cleanContent content) = none)
    {v : JVal} (hparse : loads ('[' :: (mid ++ [']'])) = some v) :
    findCand '[' ']' (cleanContent content) =
      ('[' :: (mid ++ [']'])) :: findCand '[' ']' q ∧
    parse_ai_response content = ⟨v, none⟩ := by
  have hcand : findCand '[' ']' (cleanContent content) =
      ('[' :: (mid ++ [']'])) :: findCand '[' ']' q := by
    rw [hclean, findCand_skip hp, findCand_open (splitAtChar_first hmid q)]
  refine ⟨hcand, ?_⟩
  rw [parse_ai_response, if_neg hne]
  simp only [hdirect, hcand, firstParse, hparse]

theorem repair_candidate_scan_lazy_witness :
    findCand '[' ']' (cleanContent "ab [1] cd".data) =
      ('[' :: ("1".data ++ [']'])) :: findCand '[' ']' " cd".data ∧
    parse_ai_response "ab [1] cd".data = ⟨.jarr [.jnum 1], none⟩ :=
  @repair_candidate_scan_lazy "ab [1] cd".data "ab ".data "1".data " cd".data
    (by decide) (by decide) (by decide) (by decide) (by decide)
    (.jarr [.jnum 1]) (by decide)

/-- C3 (counterexample): wrap-invariance fails for surrounding prose — for
the serialized array holding one object with key "a", the prose wrapper
`"scores [1] and "` makes the repair return the parse of the prose's own
bracket span `[1]`, not the parse of the cleanly-extracted substring. -/
theorem repair_wrap_invariance_counterexample :
    cleanContent "scores [1] and [\x7b\"a\": 1\x7d]".data =
      "scores [1] and [\x7b\"a\": 1\x7d]".data ∧
    loads "[\x7b\"a\": 1\x7d]".data = some (.jarr [.jobj [("a".data, .jnum 1)]]) ∧
    parse_ai_response "scores [1] and [\x7b\"a\": 1\x7d]".data =
      ⟨.jarr [.jnum 1], none⟩ ∧
    ¬(JVal.jarr [.jnum 1] = .jarr [.jobj [("a".data, .jnum 1)]]) := by
  decide

/-- C3 (amended): wrap-invariance holds for the fenced code-block wrapper,
with or without the json language tag (provided the wrapped text does not
carry a `<think>`/`</think>` pair), and
both spec scenarios hold: the fenced input with the single record of id
"R-1" repairs to that record list, and the reasoning-block input with the
single record of key "a" repairs to that record list. -/
theorem repair_wrapped_scenarios {vs : List JVal}
    (h : ¬(containsSubstr ("```json\n".data ++ (dumps (.jarr vs) ++ "\n```".data))
             thinkOpen = true ∧
           containsSubstr ("```json\n".data ++ (dumps (.jarr vs) ++ "\n```".data))
             thinkClose = true))
    (hp : ¬(containsSubstr ("```\n".data ++ (dumps (.jarr vs) ++ "\n```".data))
             thinkOpen = true ∧
           containsSubstr ("```\n".data ++ (dumps (.jarr vs) ++ "\n```".data))
             thinkClose = true)) :
    parse_ai_response ("```json\n".data ++ (dumps (.jarr vs) ++ "\n```".data)) =
      ⟨.jarr vs, none⟩ ∧
    parse_ai_response ("```\n".data ++ (dumps (.jarr vs) ++ "\n```".data)) =
      ⟨.jarr vs, none⟩ ∧
    parse_ai_response "```json\n[\x7b\"id\":\"R-1\"\x7d]\n```".data =
      ⟨.jarr [.jobj [("id".data, .jstr "R-1".data)]], none⟩ ∧
    parse_ai_response "<reasoning>...</reasoning>[\x7b\"a\":1\x7d]".data =
      ⟨.jarr [.jobj [("a".data, .jnum 1)]], none⟩ :=
  ⟨repair_fenced_json h, repair_fenced_plain hp, by decide, by decide⟩

theorem repair_wrapped_scenarios_witness :
    parse_ai_response ("```json\n".data ++ (dumps (.jarr [.jnum 1]) ++ "\n```".data)) =
      ⟨.jarr [.jnum 1], none⟩ ∧
    parse_ai_response ("```\n".data ++ (dumps (.jarr [.jnum 1]) ++ "\n```".data)) =
      ⟨.jarr [.jnum 1], none⟩ :=
  ⟨(repair_wrapped_scenarios (by decide) (by decide)).1,
   (repair_wrapped_scenarios (by decide) (by decide)).2.1⟩

/-- C4 (counterexample): idempotence fails — the input holding the escaped
text of a think pair repairs successfully to the record list whose single
string is `<think>x</think>`, but its serialized text re-triggers the
think-stripping step, so repairing the repair's own serialized output
yields the failure outcome instead of the same value. -/
theorem repair_idempotence_counterexample :
    parse_ai_response "[\"\\u003cthink\\u003ex\\u003c/think\\u003e\"]".data =
      ⟨.jarr [.jstr "<think>x</think>".data], none⟩ ∧
    dumps (.jarr [.jstr "<think>x</think>".data]) = "[\"<think>x</think>\"]".data ∧
    parse_ai_response "[\"<think>x</think>\"]".data =
      ⟨.jarr [], some "\"]".data⟩ ∧
    ¬(RepairResult.mk (.jarr []) (some "\"]".data) =
      ⟨.jarr [.jstr "<think>x</think>".data], none⟩) := by
  decide

/-- C4 (amended): the repair operation is deterministic (it is a pure
function of its input), and it is idempotent on every success whose
serialized text does not contain a `<think>`/`</think>` pair: repairing
`json.dumps` of the successful value returns the same value. -/
theorem repair_deterministic_guarded_idempotent {x : List Char} {v : JVal}
    (hx : parse_ai_response x = ⟨v, none⟩)
    (h : ¬(containsSubstr (dumps v) thinkOpen = true ∧
           containsSubstr (dumps v) thinkClose = true)) :
    parse_ai_response (dumps v) = parse_ai_response x ∧
    ∀ y, y = x → parse_ai_response y = parse_ai_response x := by
  refine ⟨?_, fun y hy => by rw [hy]⟩
  rw [hx, parse_ai_response_dumps h]

theorem repair_deterministic_guarded_idempotent_witness :
    parse_ai_response (dumps (.jarr [.jnum 1])) = parse_ai_response "[1]".data ∧
    ∀ y, y = "[1]".data → parse_ai_response y = parse_ai_response "[1]".data :=
  repair_deterministic_guarded_idempotent (by decide) (by decide)

/-- C5: the accuracy computation returns `1` when no expected count is
supplied, `min(extracted/expected, 1)` for a positive expected count and
`0` for a zero expected count; it always lies in `[0, 1]`, and
`accuracy 3 (some 5) = 3/5`. -/
theorem accuracy_spec (k : Nat) (n : Int) (e : Option Int) :
    accuracy k none = 1 ∧
    (0 < n → accuracy k (some n) = min ((k : ℚ) / (n : ℚ)) 1) ∧
    accuracy k (some 0) = 0 ∧
    0 ≤ accuracy k e ∧ accuracy k e ≤ 1 ∧
    accuracy 3 (some 5) = 3/5 := by
  refine ⟨rfl, fun hn => by rw [accuracy, if_pos hn], by rw [accuracy]; norm_num,
    ?_, ?_, ?_⟩
  · cases e with
    | none => rw [accuracy]; norm_num
    | some m =>
      rw [accuracy]
      split_ifs with h
      · exact le_min
          (div_nonneg (by positivity) (by exact_mod_cast h.le)) (by norm_num)
      · exact le_refl 0
  · cases e with
    | none => exact le_refl 1
    | some m =>
      rw [accuracy]
      split_ifs with h
      · exact min_le_right _ _
      · norm_num
  · rw [accuracy, if_pos (by norm_num)]
    rw [min_eq_left (by norm_num)]
    norm_num

theorem accuracy_spec_witness :
    0 < (5 : Int) ∧ accuracy 3 (some 5) = min ((3 : ℚ) / (5 : ℚ)) 1 :=
  ⟨by norm_num, (accuracy_spec 3 5 (some 5)).2.1 (by norm_num)⟩

/-- C6: under a medium rule confidence (below the 4/5 escalation bound —
the 1/2 lower bound holds always), detection combines the rule result with
the AI result; agreement yields that format with confidence
`min((rule+ai)/2 + 1/5, 1)` and the hybrid-consistent method, and
disagreement yields the strictly higher-confidence source's format with
its confidence discounted by 10% and the corresponding hybrid-preferred
method. -/
theorem hybrid_combination_spec (content filename : List Char)
    (dt : DocumentType) (ai : DetectionResult)
    (hmed : calculate_rule_confidence content filename dt < 4/5) :
    detect_document_type content filename dt ai =
      combine_results (rule_detection content filename dt) ai ∧
    (∀ rule : DetectionResult, rule.document_type = ai.document_type →
      combine_results rule ai =
        ⟨rule.document_type, min ((rule.confidence + ai.confidence) / 2 + 1/5) 1,
          "hybrid_consistent"⟩) ∧
    (∀ rule : DetectionResult, ¬rule.document_type = ai.document_type →
      ai.confidence > rule.confidence →
      combine_results rule ai =
        ⟨ai.document_type, ai.confidence * (9/10), "hybrid_ai_preferred"⟩) ∧
    (∀ rule : DetectionResult, ¬rule.document_type = ai.document_type →
      rule.confidence > ai.confidence →
      combine_results rule ai =
        ⟨rule.document_type, rule.confidence * (9/10), "hybrid_rule_preferred"⟩) := by
  refine ⟨?_, ?_, ?_, ?_⟩
  · have hconf : (rule_detection content filename dt).confidence =
        calculate_rule_confidence content filename dt := rfl
    rw [detect_document_type]
    rw [if_neg (by rw [hconf]; exact not_le.mpr hmed),
      if_pos (by rw [hconf]; exact (crc_bounds content filename dt).1)]
  · intro rule hagree
    rw [combine_results, if_pos hagree]
  · intro rule hdis hai
    rw [combine_results, if_neg hdis, if_pos hai]
  · intro rule hdis hrule
    rw [combine_results, if_neg hdis, if_neg (not_lt.mpr hrule.le)]

theorem hybrid_combination_spec_witness :
    detect_document_type "x".data "y".data .txt ⟨.pdf, 3/4, "ai"⟩ =
      combine_results (rule_detection "x".data "y".data .txt) ⟨.pdf, 3/4, "ai"⟩ :=
  (hybrid_combination_spec "x".data "y".data .txt ⟨.pdf, 3/4, "ai"⟩ (by
    have h : calculate_rule_confidence "x".data "y".data DocumentType.txt = 1/2 := by
      simp only [calculate_rule_confidence]
      rw [if_neg (by decide), if_neg (by decide), if_neg (by decide),
        if_neg (by decide), if_neg (by decide)]
      exact min_eq_left (by norm_num)
    rw [h]
    norm_num)).1

/-- C7: constructing a `Document` fails with a validation error whenever
the title or the content is empty or whitespace-only, and every
successfully constructed `Document` has a non-empty title and non-empty
content. -/
theorem document_validation (title content : List Char) (dt : DocumentType) :
    ((pstrip title = [] ∨ pstrip content = []) →
      ∃ msg, mkDocument title content dt = .error msg) ∧
    (∀ d, mkDocument title content dt = .ok d →
      ¬d.title = [] ∧ ¬d.content = []) := by
  constructor
  · intro h
    rw [mkDocument]
    by_cases ht : pstrip title = []
    · exact ⟨_, by rw [if_pos ht]⟩
    · rcases h with h | h
      · exact absurd h ht
      · exact ⟨_, by rw [if_neg ht, if_pos h]⟩
  · intro d hd
    rw [mkDocument] at hd
    by_cases ht : pstrip title = []
    · rw [if_pos ht] at hd
      cases hd
    · rw [if_neg ht] at hd
      by_cases hc : pstrip content = []
      · rw [if_pos hc] at hd
        cases hd
      · rw [if_neg hc] at hd
        injection hd with hd
        subst hd
        refine ⟨ht, ?_⟩
        intro e
        rw [show (⟨pstrip title, content, dt⟩ : Document).content = content from rfl]
          at e
        subst e
        exact hc rfl

theorem document_validation_witness :
    (∃ msg, mkDocument "  ".data "c".data DocumentType.txt = .error msg) ∧
    (¬(Document.mk "t".data "c".data DocumentType.txt).title = [] ∧
     ¬(Document.mk "t".data "c".data DocumentType.txt).content = []) :=
  ⟨(document_validation "  ".data "c".data DocumentType.txt).1 (Or.inl (by decide)),
   (document_validation "t".data "c".data DocumentType.txt).2
     ⟨"t".data, "c".data, DocumentType.txt⟩ (by rfl)⟩

/-- C8: when the heading lines of a markdown document are exactly three
level-2 headings (stripped lines starting with `##` and not `###`, and no
other heading lines), section extraction yields exactly three sections,
each of level 2, whose (level, title) pairs are exactly the headings'
levels and the heading texts after the `#` markers. -/
theorem md_sections_three_l2 (content : List Char)
    (hlen : ((splitOn '\n' content).filter
      (fun l => startsWith (pstrip l) ['#'])).length = 3)
    (hlev : ∀ l ∈ (splitOn '\n' content).filter
      (fun l => startsWith (pstrip l) ['#']),
      startsWith (pstrip l) ['#', '#'] = true ∧
      startsWith (pstrip l) ['#', '#', '#'] = false) :
    (extract_sections content).length = 3 ∧
    (∀ s ∈ extract_sections content, s.level = 2) ∧
    (extract_sections content).map (fun s => (s.level, s.title)) =
      ((splitOn '\n' content).filter (fun l => startsWith (pstrip l) ['#'])).map
        (fun l => (hashCount (pstrip l), pstrip ((pstrip l).dropWhile (· = '#')))) := by
  have hmap : (extract_sections content).map (fun s => (s.level, s.title)) =
      ((splitOn '\n' content).filter (fun l => startsWith (pstrip l) ['#'])).map
        (fun l => (hashCount (pstrip l), pstrip ((pstrip l).dropWhile (· = '#')))) := by
    rw [extract_sections, List.map_map]
    exact sectionsLoop_pairs (splitOn '\n' content) none
  refine ⟨?_, ?_, hmap⟩
  · have hlens := congrArg List.length hmap
    simp only [List.length_map] at hlens
    rw [hlens, hlen]
  · intro s hs
    have hmem : (s.level, s.title) ∈ (extract_sections content).map
        (fun s => (s.level, s.title)) := List.mem_map_of_mem _ hs
    rw [hmap] at hmem
    obtain ⟨l, hlmem, heq⟩ := List.mem_map.mp hmem
    obtain ⟨h2, h3⟩ := hlev l hlmem
    have hfst : s.level = hashCount (pstrip l) := by
      have := congrArg Prod.fst heq
      simpa using this.symm
    rw [hfst, hashCount_two h2 h3]

theorem md_sections_three_l2_witness :
    (extract_sections "## A\nx\n## B\n## C".data).length = 3 ∧
    (∀ s ∈ extract_sections "## A\nx\n## B\n## C".data, s.level = 2) ∧
    (extract_sections "## A\nx\n## B\n## C".data).map (fun s => (s.level, s.title)) =
      ((splitOn '\n' "## A\nx\n## B\n## C".data).filter
        (fun l => startsWith (pstrip l) ['#'])).map
        (fun l => (hashCount (pstrip l), pstrip ((pstrip l).dropWhile (· = '#')))) :=
  md_sections_three_l2 "## A\nx\n## B\n## C".data (by decide) (by decide)

/-- C9 (counterexample): per-document isolation fails under duplicate
titles — of two documents both titled "T", the first extraction succeeds
with one record and the second raises, yet the returned mapping holds a
single entry mapping "T" to the empty list, so the first document's
successful result is not present. -/
theorem extract_batch_duplicate_title_counterexample :
    extract_batch
      (fun d => if d.content = "a".data then Except.ok [()] else Except.error "boom")
      [⟨"T".data, "a".data, .txt⟩, ⟨"T".data, "b".data, .txt⟩] =
      [("T".data, [])] ∧
    (if ("a".data : List Char) = "a".data then Except.ok [()]
      else (Except.error "boom" : Except String (List Unit))) = Except.ok [()] ∧
    ¬(([] : List Unit) = [()]) := by
  refine ⟨by decide, by rw [if_pos rfl], by decide⟩

/-- C9 (amended): when the input documents' titles are pairwise distinct,
batch extraction returns one entry per document in order, mapping each
title to the document's own extraction result, with a raising document
contributing the empty list instead of aborting the batch. -/
theorem extract_batch_per_document {ρ : Type}
    (extract : Document → Except String (List ρ)) (documents : List Document)
    (hnd : (documents.map Document.title).Nodup) :
    extract_batch extract documents =
      documents.map (fun d => (d.title,
        match extract d with
        | .ok reqs => reqs
        | .error _ => [])) := by
  rw [extract_batch]
  have h := batch_fold_nodup (fun d =>
      match extract d with
      | .ok reqs => reqs
      | .error _ => []) documents [] hnd (by simp)
  simpa using h

theorem extract_batch_per_document_witness :
    extract_batch
      (fun d => if d.title = "A".data then Except.ok [1] else Except.error "x")
      [⟨"A".data, "a".data, .txt⟩, ⟨"B".data, "b".data, .txt⟩] =
      [(⟨"A".data, "a".data, .txt⟩ : Document), ⟨"B".data, "b".data, .txt⟩].map
        (fun d => (d.title,
          match (if d.title = "A".data then Except.ok [1]
            else (Except.error "x" : Except String (List Nat))) with
          | .ok reqs => reqs
          | .error _ => [])) :=
  extract_batch_per_document
    (fun d => if d.title = "A".data then Except.ok [1] else Except.error "x")
    [⟨"A".data, "a".data, .txt⟩, ⟨"B".data, "b".data, .txt⟩] (by decide)

/-- C10: the rule-based classification confidence always lies in
`[1/2, 1]`, so `detect_document_type` never reaches its low-confidence
branch: the result is always either the rule result itself or the hybrid
combination, never the AI-preferred or uncertain outcome. -/
theorem rule_confidence_range (content filename : List Char)
    (dt : DocumentType) (ai : DetectionResult) :
    (1/2 ≤ calculate_rule_confidence content filename dt ∧
      calculate_rule_confidence content filename dt ≤ 1) ∧
    (detect_document_type content filename dt ai =
        rule_detection content filename dt ∨
      detect_document_type content filename dt ai =
        combine_results (rule_detection content filename dt) ai) := by
  have hb := crc_bounds content filename dt
  have hconf : (rule_detection content filename dt).confidence =
      calculate_rule_confidence content filename dt := rfl
  refine ⟨hb, ?_⟩
  rw [detect_document_type]
  by_cases h1 : (rule_detection content filename dt).confidence ≥ 4/5
  · rw [if_pos h1]
    exact Or.inl rfl
  · rw [if_neg h1, if_pos (by rw [hconf]; exact hb.1)]
    exact Or.inr rfl

end TestMind
